import Mathlib

/-!
Shallow embedding of `tlm_adjoint/adjoint.py` (adjoint right-hand-side
accumulator hierarchy, `TransposeComputationalGraph`, `AdjointCache`),
together with the external variable/equation contracts it consumes
(`var_id`, `var_copy`, `space_new`, `var_space_type`, the `Equation`
capability set).  Variables are modelled by identity: a heap allocator
hands out fresh object ids, so object-identity claims (`is` in Python)
become equalities of ids.  Machine behaviour that raises a Python
exception (tuple-unpacking failure, `pop` from an empty list) is modelled
by `Option`-valued operations returning `none`.
-/

namespace TlmAdj

/-- Space types of the variable interface: `primal`, `conjugate`, `dual`,
`conjugate_dual`.  Modelled from the spec: the variable interface
(`var_space_type`, relative space types) is external to `adjoint.py` and
not part of the sources; the spec describes a four-element type with
relative comparison. -/
inductive SpaceType where
  | primal
  | conjugate
  | dual
  | conjugateDual
deriving DecidableEq, Repr

/-- Conjugation of a space type. -/
def SpaceType.conj : SpaceType → SpaceType
  | .primal => .conjugate
  | .conjugate => .primal
  | .dual => .conjugateDual
  | .conjugateDual => .dual

/-- Duality of a space type. -/
def SpaceType.dualOf : SpaceType → SpaceType
  | .primal => .dual
  | .dual => .primal
  | .conjugate => .conjugateDual
  | .conjugateDual => .conjugate

/-- Space type of `x` relative to a base space type, as used by
`var_space_type(x, rel_space_type=...)`.  Modelled from the spec: relative
`primal` is the identity, `conjugate` conjugates, `dual` dualizes,
`conjugate_dual` does both. -/
def relSpaceType (st : SpaceType) : SpaceType → SpaceType
  | .primal => st
  | .conjugate => st.conj
  | .dual => st.dualOf
  | .conjugateDual => st.dualOf.conj

/-- Forward variable of the external variable interface: a globally unique
id (`var_id`), a space (`var_space`), a space type, and the optional
`_tlm_adjoint__tlm_root_id` attribute consulted by `AdjointCache`. -/
structure Var where
  id : Nat
  space : Nat := 0
  spaceType : SpaceType := .primal
  tlmRootId : Option Nat := none
deriving DecidableEq, Repr

/-- Plain primal variable with a given id. -/
def mkV (n : Nat) : Var := ⟨n, 0, .primal, none⟩

/-- Equation of the external equation interface: outputs `X()`, inputs
`dependencies()`, `adjoint_initial_condition_dependencies()`, the per-output
adjoint space types `adj_X_type(m)`, the `Instruction` subtype test, the
`ControlsMarker`/`FunctionalMarker` subtype test, the stable equation `id`,
and the optional `_tlm_adjoint__tlm_root_id` / `_tlm_adjoint__tlm_key`
attributes consulted by `AdjointCache`. -/
structure Eqn where
  outs : List Var
  deps : List Var
  adjIcDeps : List Var := []
  adjXTypes : List SpaceType := []
  instruction : Bool := false
  marker : Bool := false
  id : Nat := 0
  tlmRootId : Option Nat := none
  tlmKey : List Nat := []
deriving DecidableEq, Repr

/-- Heap of variable objects: a fresh-id allocator plus the numeric value
stored in each object.  Object identity is the id. -/
structure Heap where
  next : Nat
  val : Nat → Int

/-- Allocation by `space_new`: a fresh zero-valued variable object. -/
def spaceNew (h : Heap) : Nat × Heap :=
  (h.next, ⟨h.next + 1, fun v => if v = h.next then 0 else h.val v⟩)

/-- Allocation by `var_copy`: a fresh variable object holding a copy of the
value of `x`. -/
def varCopy (x : Nat) (h : Heap) : Nat × Heap :=
  (h.next, ⟨h.next + 1, fun v => if v = h.next then h.val x else h.val v⟩)

/-- In-place effect of `subtract_adjoint_derivative_action(x, b)` on the
heap: the value of object `x` decreases by the value of the term; the
object's identity is unchanged. -/
def subAction (x : Nat) (t : Int) (h : Heap) : Heap :=
  ⟨h.next, fun v => if v = x then h.val v - t else h.val v⟩

/-- State of an `AdjointRHS`: the conjugate-dual space data of the bound
forward variable and the lazily allocated internal variable `self._b`
(`none` when not yet allocated). -/
structure AdjointRHS where
  space : Nat
  spaceType : SpaceType
  _b : Option Nat
deriving DecidableEq, Repr

/-- Constructor `AdjointRHS(x)`. -/
def AdjointRHS.ofVar (x : Var) : AdjointRHS :=
  ⟨x.space, relSpaceType x.spaceType .conjugateDual, none⟩

/-- Method `AdjointRHS.initialize`: allocate the internal variable if it is
absent; idempotent. -/
def AdjointRHS.initStore (r : AdjointRHS) (h : Heap) : AdjointRHS × Heap :=
  match r._b with
  | some _ => (r, h)
  | none =>
    let (v, h') := spaceNew h
    (⟨r.space, r.spaceType, some v⟩, h')

/-- Method `AdjointRHS.b(copy=...)`: allocate if needed, then return either
the internal variable object itself or a fresh copy of it. -/
def AdjointRHS.b (copy : Bool) (r : AdjointRHS) (h : Heap) :
    Nat × AdjointRHS × Heap :=
  let (r', h') := r.initStore h
  match r'._b with
  | some v =>
    if copy then
      let (c, h'') := varCopy v h'
      (c, r', h'')
    else
      (v, r', h')
  | none => (0, r', h')

/-- Method `AdjointRHS.sub(b)`: no-op on `None`; otherwise allocate if
needed and subtract the term with
`subtract_adjoint_derivative_action`. -/
def AdjointRHS.sub (t : Option Int) (r : AdjointRHS) (h : Heap) :
    AdjointRHS × Heap :=
  match t with
  | none => (r, h)
  | some b =>
    let (r', h') := r.initStore h
    match r'._b with
    | some v => (r', subAction v b h')
    | none => (r', h')

/-- Method `AdjointRHS.is_empty`: whether `initialize` has never run. -/
def AdjointRHS.is_empty (r : AdjointRHS) : Bool :=
  r._b.isNone

/-- An operation performed on one `AdjointRHS`: a `sub` call (with `none`
standing for Python `None`), a `b` call, or an explicit `initialize`
call. -/
inductive RhsOp where
  | subOp (t : Option Int)
  | bOp (copy : Bool)
  | initOp
deriving DecidableEq, Repr

/-- Application of one operation to an `AdjointRHS` and the heap. -/
def runRhsOp (s : AdjointRHS × Heap) (op : RhsOp) : AdjointRHS × Heap :=
  match op with
  | .subOp t => AdjointRHS.sub t s.1 s.2
  | .bOp c =>
    let (_, r, h) := AdjointRHS.b c s.1 s.2
    (r, h)
  | .initOp => AdjointRHS.initStore s.1 s.2

/-- Application of a sequence of operations, first operation first. -/
def runRhsOps (ops : List RhsOp) (s : AdjointRHS × Heap) : AdjointRHS × Heap :=
  ops.foldl runRhsOp s

/-- Test used when claiming that a contribution was added through `sub`
with a non-`None` term: does the operation sequence contain such a
call. -/
def hasRealSub (ops : List RhsOp) : Bool :=
  ops.any fun op =>
    match op with
    | .subOp (some _) => true
    | _ => false

/-- Test for operations that allocate the internal storage of an
`AdjointRHS`: a `sub` with a non-`None` term, any `b` call, and any
explicit `initialize` call. -/
def allocatingOp (op : RhsOp) : Bool :=
  match op with
  | .subOp (some _) => true
  | .bOp _ => true
  | .initOp => true
  | .subOp none => false

/-- State of an `AdjointEquationRHS`: one `AdjointRHS` per forward output
of the equation. -/
structure AdjointEquationRHS where
  _B : List AdjointRHS
deriving DecidableEq, Repr

/-- Constructor `AdjointEquationRHS(eq)`. -/
def AdjointEquationRHS.ofEqn (eq : Eqn) : AdjointEquationRHS :=
  ⟨eq.outs.map AdjointRHS.ofVar⟩

/-- Method `AdjointEquationRHS.b(copy=...)`: `b, = self._B` unpacks the
tuple of children, raising unless there is exactly one; modelled by
`none` (the children are untouched in that case, since the unpacking
precedes any child operation). -/
def AdjointEquationRHS.b (copy : Bool) (r : AdjointEquationRHS) (h : Heap) :
    Option (Nat × AdjointEquationRHS × Heap) :=
  match r._B with
  | [rhs] =>
    let (v, rhs', h') := AdjointRHS.b copy rhs h
    some (v, ⟨[rhs']⟩, h')
  | _ => none

/-- Method `AdjointEquationRHS.B(copy=...)`: one `b` call per child, in
order. -/
def AdjointEquationRHS.Ball (copy : Bool) (r : AdjointEquationRHS)
    (h : Heap) : List Nat × AdjointEquationRHS × Heap :=
  let z := r._B.foldl
    (fun acc rhs =>
      let (v, rhs', h') := AdjointRHS.b copy rhs acc.2.2
      (acc.1 ++ [v], acc.2.1 ++ [rhs'], h'))
    (([] : List Nat), ([] : List AdjointRHS), h)
  (z.1, ⟨z.2.1⟩, z.2.2)

/-- Method `AdjointEquationRHS.is_empty`: all children empty. -/
def AdjointEquationRHS.is_empty (r : AdjointEquationRHS) : Bool :=
  r._B.all AdjointRHS.is_empty

/-- State of an `AdjointBlockRHS`: one `AdjointEquationRHS` per equation of
the block. -/
structure AdjointBlockRHS where
  _B : List AdjointEquationRHS
deriving DecidableEq, Repr

/-- Constructor `AdjointBlockRHS(block)`. -/
def AdjointBlockRHS.ofBlock (block : List Eqn) : AdjointBlockRHS :=
  ⟨block.map AdjointEquationRHS.ofEqn⟩

/-- Method `AdjointBlockRHS.pop`: remove and return the last
`AdjointEquationRHS` together with its index; `none` models the
`IndexError` of `list.pop` on an empty list. -/
def AdjointBlockRHS.pop (r : AdjointBlockRHS) :
    Option (Nat × AdjointEquationRHS × AdjointBlockRHS) :=
  match r._B.getLast? with
  | some last => some (r._B.length - 1, last, ⟨r._B.dropLast⟩)
  | none => none

/-- Method `AdjointBlockRHS.is_empty`: no equations left. -/
def AdjointBlockRHS.is_empty (r : AdjointBlockRHS) : Bool :=
  r._B.length = 0

/-- State of an `AdjointModelRHS`.  In the source `self._B` is a dict from
block index to `AdjointBlockRHS` and `self._blocks_n` is the list of its
keys in order; both are always created and deleted together, so the pair is
modelled as one ordered association list. -/
structure AdjointModelRHS where
  _B : List (Nat × AdjointBlockRHS)
deriving DecidableEq, Repr

/-- Loop body of `AdjointModelRHS._pop_empty`: while the last retained
block is empty, delete it. -/
def popEmptyTail : List (Nat × AdjointBlockRHS) → List (Nat × AdjointBlockRHS)
  | [] => []
  | x :: xs =>
    if popEmptyTail xs = [] ∧ x.2.is_empty then [] else x :: popEmptyTail xs

/-- Constructor `AdjointModelRHS(blocks)`: one `AdjointBlockRHS` per block
(`blocksN` lists the block indices: `range(len(blocks))` for a `Sequence`,
the sorted keys for a `Mapping`), then `_pop_empty`. -/
def AdjointModelRHS.ofBlocks (blocksN : List Nat) (blocks : Nat → List Eqn) :
    AdjointModelRHS :=
  ⟨popEmptyTail (blocksN.map fun n => (n, AdjointBlockRHS.ofBlock (blocks n)))⟩

/-- Method `AdjointModelRHS.pop`: pop the last equation of the last block,
then `_pop_empty`; `none` models the `IndexError` raised on an empty
structure. -/
def AdjointModelRHS.pop (r : AdjointModelRHS) :
    Option ((Nat × Nat) × AdjointEquationRHS × AdjointModelRHS) :=
  match r._B.getLast? with
  | none => none
  | some (n, blk) =>
    match blk.pop with
    | none => none
    | some (i, B, blk') =>
      some ((n, i), B, ⟨popEmptyTail (r._B.dropLast ++ [(n, blk')])⟩)

/-- Method `AdjointModelRHS.is_empty`: no blocks left. -/
def AdjointModelRHS.is_empty (r : AdjointModelRHS) : Bool :=
  r._B.length = 0

/-- States of `AdjointModelRHS` reachable by construction from some blocks
followed by a sequence of successful `pop()` calls. -/
inductive ModelReachable : AdjointModelRHS → Prop where
  | ofBlocks (blocksN : List Nat) (blocks : Nat → List Eqn) :
      ModelReachable (AdjointModelRHS.ofBlocks blocksN blocks)
  | pop (s : AdjointModelRHS) (res : (Nat × Nat) × AdjointEquationRHS × AdjointModelRHS) :
      ModelReachable s → s.pop = some res → ModelReachable res.2.2

/-- Tape position `(block, equation)`. -/
abbrev Pos := Nat × Nat

/-- Slot `(block, equation, index)`, used both for dependency slots and for
output slots. -/
abbrev Slot := Nat × Nat × Nat

/-- Equation found at tape position `(n, i)`.  A tape is given by the
ordered list of block indices (`range(len(blocks))` for a `Sequence`, the
sorted keys for a `Mapping`) together with the block contents. -/
def eqnAt (blocksN : List Nat) (blocks : Nat → List Eqn) (n i : Nat) :
    Option Eqn :=
  if n ∈ blocksN then (blocks n).get? i else none

/-- Flattened tape in forward traversal order: every `((n, i), eq)` with
`n` running over `blocksN` and `i` over the block. -/
def tapeList (blocksN : List Nat) (blocks : Nat → List Eqn) :
    List (Pos × Eqn) :=
  blocksN.flatMap fun n => (blocks n).enum.map fun ie => ((n, ie.1), ie.2)

/-- Strict tape order on positions. -/
def posLt (a b : Pos) : Prop :=
  a.1 < b.1 ∨ (a.1 = b.1 ∧ a.2 < b.2)

instance : DecidableRel posLt := fun a b => by
  unfold posLt; infer_instance

/-- Reflexive tape order on positions. -/
def posLe (a b : Pos) : Prop :=
  posLt a b ∨ a = b

instance : DecidableRel posLe := fun a b => by
  unfold posLe; infer_instance

/-- State of the reverse-edge pass: the `last_eq` dict mapping a variable
id to the `(block, eq, output)` slot of its most recent producer, and the
tuple-keyed entries of the `transpose_deps` dict.  The source also seeds
`transpose_deps` with int-keyed empty sub-dicts (`{n: {} for n in
blocks_n}`); those entries are never matched by the tuple-keyed lookups of
`__contains__`/`__getitem__` and are not represented. -/
structure TransposeState where
  le : Nat → Option Slot
  td : Slot → Option Slot

/-- Reverse-edge pass body for one equation: record every output as the
last producer of its variable id (overwriting earlier records), then for
every dependency slot whose id has a recorded producer `(p, k, m)` with
`p < n or k < i`, record the transpose edge. -/
def transposeStep (st : TransposeState) (pe : Pos × Eqn) : TransposeState :=
  let n := pe.1.1
  let i := pe.1.2
  let eq := pe.2
  let le' := eq.outs.enum.foldl
    (fun le mx => fun d => if d = mx.2.id then some (n, i, mx.1) else le d)
    st.le
  let td' := eq.deps.enum.foldl
    (fun td jd =>
      match le' jd.2.id with
      | some pkm =>
        if pkm.1 < n ∨ pkm.2.1 < i then
          fun key => if key = (n, i, jd.1) then some pkm else td key
        else td
      | none => td)
    st.td
  ⟨le', td'⟩

/-- Empty state of the reverse-edge pass: `last_eq = {}` and no transpose
edges. -/
def tInit : TransposeState := ⟨fun _ => none, fun _ => none⟩

/-- Reverse-edge pass (`TransposeComputationalGraph.__init__`, first loop):
forward traversal of the whole tape. -/
def buildTransposeDeps (blocksN : List Nat) (blocks : Nat → List Eqn) :
    Slot → Option Slot :=
  ((tapeList blocksN blocks).foldl transposeStep tInit).td

/-- Dict `dep_map = {var_id(dep): j for j, dep in enumerate(eq.dependencies())}`:
maps a variable id to the index of its last occurrence among the
dependencies. -/
def buildDepMap (eq : Eqn) : Nat → Option Nat :=
  eq.deps.enum.foldl
    (fun f jd => fun d => if d = jd.2.id then some jd.1 else f d) (fun _ => none)

/-- State of the adjoint-initial-condition reverse pass: `last_eq` maps a
variable id to the adjoint space type and dependency slot at which a
later-in-tape-order equation consumes it, and `transpose_deps_ics` extends
the primary transpose edges. -/
structure IcsState where
  le : Nat → Option (SpaceType × Slot)
  td : Slot → Option Slot

/-- Per-output body of the adjoint-initial-condition pass for the
equation at `(p, k)`. -/
def icsOutStep (p k : Nat) (eq : Eqn) (st : IcsState) (mx : Nat × Var) :
    IcsState :=
  let m := mx.1
  let x := mx.2
  let t := relSpaceType x.spaceType (eq.adjXTypes.getD m .primal)
  let td' :=
    if x.id ∈ eq.adjIcDeps.map Var.id then
      match st.le x.id with
      | some (t', nij) =>
        if t = t' then
          fun key => if key = nij then some (p, k, m) else st.td key
        else st.td
      | none => st.td
    else st.td
  let le' := fun d =>
    if d = x.id then some (t, (p, k, (buildDepMap eq x.id).getD 0))
    else st.le d
  ⟨le', td'⟩

/-- Adjoint-initial-condition pass body for one equation (processed in
reverse tape order).  The source reads `dep_map[x_id]`, which raises
`KeyError` unless every output appears among its own equation's
dependencies (the documented equation contract); the model returns slot 0
in that unreachable case, and the theorems that depend on this pass assume
the contract. -/
def icsStep (st : IcsState) (pe : Pos × Eqn) : IcsState :=
  pe.2.outs.enum.foldl (icsOutStep pe.1.1 pe.1.2 pe.2) st

/-- Adjoint-initial-condition reverse pass: starts from a deep copy of the
primary transpose edges and walks the tape backwards. -/
def buildIcsEdges (blocksN : List Nat) (blocks : Nat → List Eqn)
    (td : Slot → Option Slot) : Slot → Option Slot :=
  (((tapeList blocksN blocks).reverse).foldl icsStep ⟨fun _ => none, td⟩).td

/-- Pointwise update of a position-indexed boolean table. -/
def setPos (f : Nat → Nat → Bool) (p : Pos) (v : Bool) : Nat → Nat → Bool :=
  fun n i => if n = p.1 ∧ i = p.2 then v else f n i

/-- Forward-pruning loop body for one equation: an equation is
forward-active if it is an `Instruction`, if one of its outputs is a not
yet produced control (which is then consumed from the shrinking active
control set), or if one of its dependency slots has a
`transpose_deps_ics` edge to an already forward-active equation. -/
def afStep (tdIcs : Slot → Option Slot) (st : List Nat × (Nat → Nat → Bool))
    (pe : Pos × Eqn) : List Nat × (Nat → Nat → Bool) :=
  let n := pe.1.1
  let i := pe.1.2
  let eq := pe.2
  let af := if eq.instruction then setPos st.2 (n, i) true else st.2
  let xIds := eq.outs.map Var.id
  let hit := st.1 ≠ [] ∧ xIds.any (· ∈ st.1)
  let activeM := if hit then st.1.filter (· ∉ xIds) else st.1
  let af := if hit then setPos af (n, i) true else af
  let af :=
    if af n i then af
    else if (List.range eq.deps.length).any fun j =>
        match tdIcs (n, i, j) with
        | some pkm => af pkm.1 pkm.2.1
        | none => false
      then setPos af (n, i) true
    else af
  (activeM, af)

/-- Forward-pruning pass (`prune_forward=True` branch): forward traversal
starting from the requested control ids. -/
def pruneForwardPass (blocksN : List Nat) (blocks : Nat → List Eqn)
    (M : List Var) (tdIcs : Slot → Option Slot) : Nat → Nat → Bool :=
  ((tapeList blocksN blocks).foldl (afStep tdIcs)
    (M.map Var.id, fun _ _ => false)).2

/-- Forward activity: the pruning pass when `prune_forward=True`, and
`True` at every tape position (`np.full(len(blocks[n]), True)`) when
`prune_forward=False`. -/
def computeActiveForward (pruneForward : Bool) (blocksN : List Nat)
    (blocks : Nat → List Eqn) (M : List Var) : Nat → Nat → Bool :=
  if pruneForward then
    pruneForwardPass blocksN blocks M
      (buildIcsEdges blocksN blocks (buildTransposeDeps blocksN blocks))
  else
    fun n i => decide (n ∈ blocksN ∧ i < (blocks n).length)

/-- State of the adjoint-pruning reverse traversal for one functional:
the `active_J` search flag, the `active_adjoint` table, and the per
functional `active` table being pruned. -/
structure AdjPruneState where
  activeJ : Bool
  aa : Nat → Nat → Bool
  act : Nat → Nat → Bool

/-- Adjoint-pruning loop body for one equation (processed in reverse tape
order). -/
def ajStep (jId : Nat) (td : Slot → Option Slot) (st : AdjPruneState)
    (pe : Pos × Eqn) : AdjPruneState :=
  let n := pe.1.1
  let i := pe.1.2
  let eq := pe.2
  let found := st.activeJ ∧ eq.outs.any (fun x => x.id = jId)
  let activeJ := if found then false else st.activeJ
  let aa := if found then setPos st.aa (n, i) true else st.aa
  if aa n i then
    let aa := (List.range eq.deps.length).foldl
      (fun aa j =>
        match td (n, i, j) with
        | some pkm => setPos aa (pkm.1, pkm.2.1) true
        | none => aa)
      aa
    ⟨activeJ, aa, st.act⟩
  else if eq.instruction then ⟨activeJ, aa, st.act⟩
  else ⟨activeJ, aa, setPos st.act (n, i) false⟩

/-- Adjoint-pruning pass for one functional `J`: prune the copy of
`active_forward` along a reverse traversal. -/
def computeActiveJ (jId : Nat) (td : Slot → Option Slot)
    (blocksN : List Nat) (blocks : Nat → List Eqn)
    (af : Nat → Nat → Bool) : Nat → Nat → Bool :=
  (((tapeList blocksN blocks).reverse).foldl (ajStep jId td)
    ⟨true, fun _ _ => false, af⟩).act

/-- State of the stored-adjoint-initial-condition forward pass. -/
structure StoredIcsState where
  le : Nat → Option (SpaceType × Pos)
  stored : Slot → Option Pos
  adjIcs : Nat → Option Pos

/-- Stored-adjoint-initial-condition pass body for one equation. -/
def storedStep (st : StoredIcsState) (pe : Pos × Eqn) : StoredIcsState :=
  let n := pe.1.1
  let i := pe.1.2
  let eq := pe.2
  let icIds := eq.adjIcDeps.map Var.id
  eq.outs.enum.foldl
    (fun st mx =>
      let m := mx.1
      let x := mx.2
      let t := relSpaceType x.spaceType (eq.adjXTypes.getD m .primal)
      let stored' :=
        match st.le x.id with
        | some (t', pk) =>
          if t = t' then
            fun key => if key = (n, i, m) then some pk else st.stored key
          else st.stored
        | none => st.stored
      if x.id ∈ icIds then
        ⟨fun d => if d = x.id then some (t, (n, i)) else st.le d,
         stored',
         fun d => if d = x.id then some (n, i) else st.adjIcs d⟩
      else
        ⟨fun d => if d = x.id then none else st.le d,
         stored',
         fun d => if d = x.id then none else st.adjIcs d⟩)
    st

/-- Stored-adjoint-initial-condition forward pass (identical for every
functional index in the source, which recomputes it per functional). -/
def computeStoredIcs (blocksN : List Nat) (blocks : Nat → List Eqn) :
    (Slot → Option Pos) × (Nat → Option Pos) :=
  let st := (tapeList blocksN blocks).foldl storedStep
    ⟨fun _ => none, fun _ => none, fun _ => none⟩
  (st.stored, st.adjIcs)

/-- State of a `TransposeComputationalGraph`.  Per-functional tables are
total functions defaulting to `False` outside the ranges the source's
dicts cover. -/
structure Graph where
  transposeDeps : Slot → Option Slot
  active : Nat → Nat → Nat → Bool
  solved : Nat → Nat → Nat → Bool
  storedAdjIcs : Nat → Slot → Option Pos
  adjIcs : Nat → Nat → Option Pos

/-- Constructor `TransposeComputationalGraph(Js, M, blocks, ...)`. -/
def mkGraph (Js : List Var) (M : List Var) (blocksN : List Nat)
    (blocks : Nat → List Eqn) (pruneForward pruneAdjoint : Bool) : Graph :=
  let td := buildTransposeDeps blocksN blocks
  let af := computeActiveForward pruneForward blocksN blocks M
  let active : Nat → Nat → Nat → Bool := fun jI n i =>
    match Js.get? jI with
    | none => false
    | some j =>
      if pruneAdjoint then computeActiveJ j.id td blocksN blocks af n i
      else af n i
  let stored := computeStoredIcs blocksN blocks
  ⟨td, active, active, fun _ => stored.1, fun _ => stored.2⟩

/-- Method `__contains__`: membership of a dependency slot in the
transpose edge map. -/
def Graph.containsSlot (g : Graph) (key : Slot) : Bool :=
  (g.transposeDeps key).isSome

/-- Method `is_active`. -/
def Graph.is_active (g : Graph) (jI n i : Nat) : Bool :=
  g.active jI n i

/-- Method `any_is_active`: OR over the functional indices of `Js`. -/
def Graph.any_is_active (g : Graph) (nJs : Nat) (n i : Nat) : Bool :=
  (List.range nJs).any fun jI => g.active jI n i

/-- Method `is_solved`. -/
def Graph.is_solved (g : Graph) (jI n i : Nat) : Bool :=
  g.solved jI n i

/-- Method `set_not_solved`. -/
def Graph.set_not_solved (g : Graph) (jI n i : Nat) : Graph :=
  ⟨g.transposeDeps,
   g.active,
   fun jI' n' i' => if jI' = jI ∧ n' = n ∧ i' = i then false
     else g.solved jI' n' i',
   g.storedAdjIcs,
   g.adjIcs⟩

/-- Method `has_adj_ic` (id form). -/
def Graph.has_adj_ic (g : Graph) (jI xId : Nat) : Bool :=
  match g.adjIcs jI xId with
  | some (n, i) => g.is_solved jI n i
  | none => false

/-- Method `is_stored_adj_ic`. -/
def Graph.is_stored_adj_ic (g : Graph) (jI n i m : Nat) : Bool :=
  match g.storedAdjIcs jI (n, i, m) with
  | some (p, k) => g.is_solved jI p k
  | none => false

/-- Application of a sequence of `set_not_solved` calls. -/
def applySetNotSolved (l : List Slot) (g : Graph) : Graph :=
  l.foldl (fun g key => g.set_not_solved key.1 key.2.1 key.2.2) g

/-- Lookup in an ordered association list modelling a Python dict (keys
unique, insertion order preserved). -/
def aget {α β : Type} [DecidableEq α] : List (α × β) → α → Option β
  | [], _ => none
  | kv :: t, k => if k = kv.1 then some kv.2 else aget t k

/-- Assignment `d[k] = v` on an association list: overwrite in place, or
append when the key is absent. -/
def aset {α β : Type} [DecidableEq α] : List (α × β) → α → β → List (α × β)
  | [], k, v => [(k, v)]
  | kv :: t, k, v => if k = kv.1 then (k, v) :: t else kv :: aset t k v

/-- Deletion `del d[k]` / `d.pop(k, default)` on an association list
(first matching key removed). -/
def aremove {α β : Type} [DecidableEq α] : List (α × β) → α → List (α × β)
  | [], _ => []
  | kv :: t, k => if k = kv.1 then t else kv :: aremove t k

/-- Cache key `(J_i, n, i)` of `AdjointCache`. -/
abbrev CKey := Nat × Nat × Nat

/-- Cached value: the tuple of adjoint output variable objects. -/
abbrev Val := List Nat

/-- Derivative-chain key (`adj_tlm_key`), an opaque comparable value. -/
abbrev AdjKey := List Nat

/-- State of an `AdjointCache`: the value store, the alias registry
`_keys`, and the stored cache key. -/
structure AdjointCache where
  _cache : List (CKey × Val)
  _keys : List (CKey × List CKey)
  _cache_key : Option (List (Nat × AdjKey))
deriving DecidableEq, Repr

/-- Constructor `AdjointCache()`. -/
def AdjointCache.empty : AdjointCache := ⟨[], [], none⟩

/-- Method `AdjointCache.clear`. -/
def AdjointCache.clear (_c : AdjointCache) : AdjointCache := ⟨[], [], none⟩

/-- Method `AdjointCache.__contains__`. -/
def AdjointCache.containsKey (c : AdjointCache) (k : CKey) : Bool :=
  (aget c._cache k).isSome

/-- Copy of a tuple of variables, element by element (`map(var_copy, adj_X)`). -/
def copyVals (v : Val) (h : Heap) : Val × Heap :=
  v.foldl
    (fun acc x =>
      let (c, h') := varCopy x acc.2
      (acc.1 ++ [c], h'))
    (([] : List Nat), h)

/-- Method `AdjointCache.get(J_i, n, i, copy=...)`: `none` models the
`KeyError` on a missing key. -/
def AdjointCache.get (c : AdjointCache) (k : CKey) (copy : Bool) (h : Heap) :
    Option (Val × Heap) :=
  (aget c._cache k).map fun v => if copy then copyVals v h else (v, h)

/-- Method `AdjointCache.cache(J_i, n, i, adj_X, copy=..., store=...)`. -/
def AdjointCache.cache (c : AdjointCache) (k : CKey) (adjX : Val)
    (copy store : Bool) (h : Heap) : AdjointCache × Heap :=
  match aget c._keys k with
  | none => (c, h)
  | some als =>
    if store ∨ als ≠ [] then
      let (v, h') :=
        match aget c._cache k with
        | some v0 => (v0, h)
        | none => if copy then copyVals adjX h else (adjX, h)
      let cache1 := if store then aset c._cache k v else c._cache
      let cache2 := als.foldl (fun cc a => aset cc a v) cache1
      (⟨cache2, c._keys, c._cache_key⟩, h')
    else (c, h)

/-- Boolean lexicographic order on `adj_tlm_key` values (Python tuple
comparison). -/
def keyLe : List Nat → List Nat → Bool
  | [], _ => true
  | _ :: _, [] => false
  | a :: as, b :: bs => if a < b then true else if a = b then keyLe as bs else false

/-- Boolean lexicographic order on `(J_i, adj_tlm_key)` pairs. -/
def pairLe (a b : Nat × AdjKey) : Bool :=
  if a.1 < b.1 then true else if a.1 = b.1 then keyLe a.2 b.2 else false

/-- Insertion into a list sorted by `pairLe`. -/
def insPair (a : Nat × AdjKey) : List (Nat × AdjKey) → List (Nat × AdjKey)
  | [] => [a]
  | b :: t => if pairLe a b then a :: b :: t else b :: insPair a t

/-- Model of Python `sorted` on `(J_i, adj_tlm_key)` pairs: insertion sort
by the total lexicographic order (any correct sort produces the same
list). -/
def sortPairs : List (Nat × AdjKey) → List (Nat × AdjKey)
  | [] => []
  | a :: t => insPair a (sortPairs t)

/-- Root functional ids: `getattr(J, "_tlm_adjoint__tlm_root_id", var_id(J))`
over the root functionals. -/
def rootIdsOf (jRoots : List Var) : List Nat :=
  jRoots.map fun j => j.tlmRootId.getD j.id

/-- Tangent-linear data of `J_tangent_linears`: the mapping `tlm_adj` from
an equation's `tlm_key` to the `(J_i, adj_tlm_key)` pairs naming the
(conjugate) derivatives stored by that equation's adjoint variables.
Modelled from the spec: `J_tangent_linears` lives in the external
`tangent_linear` module; `AdjointCache.initialize` consumes its result
`(J_roots, tlm_adj)`, which the model therefore takes as arguments. -/
abbrev TlmAdjMap := List (List Nat × List (Nat × AdjKey))

/-- Cache key computed by `initialize`: the `(J_i, adj_tlm_key)` pairs of
`tlm_adj`, sorted, with each `J_i` replaced by its root functional id
(`J_root_ids[J_i]`; out-of-range indices would raise in the source and
are mapped to `0`, the theorems quantify over in-range data). -/
def computeCacheKey (rootIds : List Nat) (tlmAdj : TlmAdjMap) :
    List (Nat × AdjKey) :=
  (sortPairs (tlmAdj.map Prod.snd).flatten).map fun ja =>
    (rootIds.getD ja.1 0, ja.2)

/-- Loop state of the root-sharing traversal in `initialize`: the cache,
the alias registry under construction, and the `eqs` defaultdict from a
root equation id to the pending `((J_i, n, i), (root_id, adj_tlm_key))`
entries. -/
structure InitState where
  cache : List (CKey × Val)
  keys : List (CKey × List CKey)
  eqs : List (Nat × List (CKey × (Nat × AdjKey)))

/-- Body of the per-root grouping loop (`for (J_j, p, k), adj_key in
eqs.pop(eq_id, [])`), carrying the local `eq_root` map from a chain key to
its root cache slot. -/
def rootPairStep (acc : InitState × List ((Nat × AdjKey) × CKey))
    (entry : CKey × (Nat × AdjKey)) :
    InitState × List ((Nat × AdjKey) × CKey) :=
  let st := acc.1
  let eqRoot := acc.2
  let jpk := entry.1
  let adjKey := entry.2
  match aget eqRoot adjKey with
  | some root =>
    let keys' := aset st.keys root ((aget st.keys root).getD [] ++ [jpk])
    let cache' :=
      if (aget st.cache jpk).isSome ∧ (aget st.cache root).isNone then
        aset st.cache root ((aget st.cache jpk).getD [])
      else st.cache
    (⟨cache', keys', st.eqs⟩, eqRoot)
  | none =>
    (⟨st.cache, aset st.keys jpk [], st.eqs⟩, aset eqRoot adjKey jpk)

/-- Body of the collecting loop of `initialize` (`for J_i, adj_tlm_key in
tlm_adj.get(eq_tlm_key, ())`): every solved-or-cached `(J_i, n, i)` is
appended to `eqs[eq_tlm_root_id]` with its `(root_id, adj_tlm_key)`
derivative name. -/
def collectStep (rootIds : List Nat) (n i eqRootId : Nat)
    (solved : CKey → Bool) (st : InitState) (ja : Nat × AdjKey) : InitState :=
  if solved (ja.1, n, i) ∨ (aget st.cache (ja.1, n, i)).isSome then
    ⟨st.cache, st.keys,
     aset st.eqs eqRootId
       ((aget st.eqs eqRootId).getD [] ++
        [((ja.1, n, i), (rootIds.getD ja.1 0, ja.2))])⟩
  else st

/-- Reverse-traversal loop body of `initialize` for one equation:
markers are skipped; solved-or-cached `(J_i, n, i)` entries are appended
to `eqs[eq_tlm_root_id]`; then `eqs.pop(eq_id, [])` is grouped by chain
key into a root slot and its aliases. -/
def initEqStep (rootIds : List Nat) (tlmAdj : TlmAdjMap)
    (solved : CKey → Bool) (st : InitState) (pe : Pos × Eqn) : InitState :=
  let n := pe.1.1
  let i := pe.1.2
  let eq := pe.2
  if eq.marker then st
  else
    let eqId := eq.id
    let eqRootId := eq.tlmRootId.getD eqId
    let st := ((aget tlmAdj eq.tlmKey).getD []).foldl
      (collectStep rootIds n i eqRootId solved) st
    let popped := (aget st.eqs eqId).getD []
    let st : InitState := ⟨st.cache, st.keys, aremove st.eqs eqId⟩
    (popped.foldl rootPairStep (st, [])).1

/-- First phase of `initialize`: clear the cache when the computed cache
key differs from the stored one (`if self._cache_key is None or
self._cache_key != cache_key: self.clear()`). -/
def clearIfNewKey (c : AdjointCache) (ck : List (Nat × AdjKey)) :
    AdjointCache :=
  if c._cache_key = some ck then c else c.clear

/-- Reverse-traversal loop of `initialize` over the whole tape, starting
from a given cache content with empty `_keys` and `eqs`. -/
def runInitLoop (rootIds : List Nat) (tlmAdj : TlmAdjMap)
    (solved : CKey → Bool) (blocksN : List Nat) (blocks : Nat → List Eqn)
    (cache0 : List (CKey × Val)) : InitState :=
  ((tapeList blocksN blocks).reverse).foldl
    (initEqStep rootIds tlmAdj solved) ⟨cache0, [], []⟩

/-- Final phase of `initialize`: `set_not_solved` on every key of the
cache and on every member of every alias list. -/
def markSolved (c : AdjointCache) (solved : CKey → Bool) : CKey → Bool :=
  let s1 := c._cache.foldl
    (fun s kv => fun q => if q = kv.1 then false else s q) solved
  c._keys.foldl
    (fun s kv => kv.2.foldl (fun s k => fun q => if q = k then false else s q) s)
    s1

/-- Method `AdjointCache.initialize(Js, blocks, transpose_deps,
cache_degree=...)`.  The result `(J_roots, tlm_adj)` of the external
`J_tangent_linears` helper is taken as arguments (`jRoots`, `tlmAdj`); the
`transpose_deps` argument enters through its mutable solved state, on
which `is_solved` reads and `set_not_solved` writes pointwise.  The
trailing assertion `len(eqs) == 0` of the source is a well-formed-tape
check with no effect on the state and is not modelled. -/
def AdjointCache.initCache (c : AdjointCache) (jRoots : List Var)
    (tlmAdj : TlmAdjMap) (blocksN : List Nat) (blocks : Nat → List Eqn)
    (solved : CKey → Bool) (cacheDegree : Option Nat) :
    AdjointCache × (CKey → Bool) :=
  let rootIds := rootIdsOf jRoots
  let ck := computeCacheKey rootIds tlmAdj
  let c1 := clearIfNewKey c ck
  let c2 : AdjointCache := ⟨c1._cache, [], none⟩
  let c3 :=
    if (match cacheDegree with | none => true | some d => decide (0 < d)) then
      let st := runInitLoop rootIds tlmAdj solved blocksN blocks c2._cache
      (⟨st.cache, st.keys, some ck⟩ : AdjointCache)
    else c2
  (c3, markSolved c3 solved)

/-- Keys marked `set_not_solved` by `initialize`: the keys of the final
cache together with every key registered in some alias list of the final
`_keys`. -/
def markedKey (c : AdjointCache) (q : CKey) : Bool :=
  (aget c._cache q).isSome || c._keys.any fun rk => decide (q ∈ rk.2)

/-- Index of the last element of `l` whose variable id is `d`. -/
def lastIdxOf (d : Nat) : List Var → Option Nat
  | [] => none
  | x :: t =>
    match lastIdxOf d t with
    | some m => some (m + 1)
    | none => if d = x.id then some 0 else none

/-- Slot of the last output of `e` whose variable id is `d` (the record a
Python dict keeps after enumerating the outputs). -/
def lastOutSlot (e : Eqn) (d : Nat) : Option Nat :=
  e.outs.enum.foldl (fun acc mx => if d = mx.2.id then some mx.1 else acc) none

/-- Most-recent-producer relation relative to a flattened tape fragment
`L`: the equation at the position part of `s` is in `L` and produces `d`
last at the slot part of `s`, and no equation of `L` at a strictly later
position produces `d`. -/
def ProducesLast (L : List (Pos × Eqn)) (d : Nat) (s : Slot) : Prop :=
  (∃ e, ((s.1, s.2.1), e) ∈ L ∧ lastOutSlot e d = some s.2.2) ∧
  ∀ q l e', ((q, l), e') ∈ L → posLt (s.1, s.2.1) (q, l) →
    lastOutSlot e' d = none

/-- Transpose-edge specification relative to a flattened tape fragment
`L`: the consuming equation sits in `L` at the position part of `key` with
the dependency slot part in range, the producing equation sits in `L`
strictly earlier at the position part of `pkm` and last-produces the
consumed id at the slot part of `pkm`, and no equation of `L` strictly
between the producer and the consumer (consumer included) produces that
id. -/
def EdgeSpecL (L : List (Pos × Eqn)) (key pkm : Slot) : Prop :=
  ∃ e dep,
    ((key.1, key.2.1), e) ∈ L ∧
    e.deps.get? key.2.2 = some dep ∧
    posLt (pkm.1, pkm.2.1) (key.1, key.2.1) ∧
    (∃ eP, ((pkm.1, pkm.2.1), eP) ∈ L ∧ lastOutSlot eP dep.id = some pkm.2.2) ∧
    ∀ q l e', ((q, l), e') ∈ L → posLt (pkm.1, pkm.2.1) (q, l) →
      posLe (q, l) (key.1, key.2.1) → lastOutSlot e' dep.id = none

/-- Specification of a transpose edge, in the words of the claim: the
variable consumed at dependency slot `j` of equation `(n, i)` was produced
as output `m` by equation `(p, k)`, strictly earlier in tape order, and no
equation between `(p, k)` and `(n, i)` — inclusive of `(n, i)` itself —
produces that variable id. -/
def IsTransposeEdge (blocksN : List Nat) (blocks : Nat → List Eqn)
    (n i j p k m : Nat) : Prop :=
  ∃ e dep eP,
    eqnAt blocksN blocks n i = some e ∧
    e.deps.get? j = some dep ∧
    eqnAt blocksN blocks p k = some eP ∧
    posLt (p, k) (n, i) ∧
    (eP.outs.get? m).map Var.id = some dep.id ∧
    ∀ q l e', eqnAt blocksN blocks q l = some e' →
      posLt (p, k) (q, l) → posLe (q, l) (n, i) →
      dep.id ∉ e'.outs.map Var.id

/-- Forward reachability from the controls `M` in the forward dependency
graph of the tape (the shadowed def-use graph recorded by
`transpose_deps_ics`): an equation is reachable if it produces one of the
requested controls, or if one of its dependency slots has an edge to a
reachable equation. -/
inductive FwdReachable (blocksN : List Nat) (blocks : Nat → List Eqn)
    (tdIcs : Slot → Option Slot) (mIds : List Nat) : Nat → Nat → Prop where
  | seed (n i : Nat) (e : Eqn) :
      eqnAt blocksN blocks n i = some e →
      (∃ x ∈ e.outs, x.id ∈ mIds) →
      FwdReachable blocksN blocks tdIcs mIds n i
  | step (n i : Nat) (e : Eqn) (j p k m : Nat) :
      eqnAt blocksN blocks n i = some e →
      j < e.deps.length →
      tdIcs (n, i, j) = some (p, k, m) →
      FwdReachable blocksN blocks tdIcs mIds p k →
      FwdReachable blocksN blocks tdIcs mIds n i

/-- Well-formedness of an edge map: every recorded edge points to a tape
position holding an equation with at least one output. -/
def EdgeTargets (blocksN : List Nat) (blocks : Nat → List Eqn)
    (td : Slot → Option Slot) : Prop :=
  ∀ q l j pp kk mm, td (q, l, j) = some (pp, kk, mm) →
    ∃ eP, eqnAt blocksN blocks pp kk = some eP ∧ eP.outs ≠ []

/-- Invariant of the forward-pruning traversal: the shrinking active
control set stays inside the requested control ids, and every equation
marked forward-active so far is an `Instruction` or is forward-reachable
from the controls. -/
def AfInvariant (blocksN : List Nat) (blocks : Nat → List Eqn)
    (tdIcs : Slot → Option Slot) (mIds : List Nat)
    (st : List Nat × (Nat → Nat → Bool)) : Prop :=
  (∀ d ∈ st.1, d ∈ mIds) ∧
  ∀ q l, st.2 q l = true →
    ∃ e, eqnAt blocksN blocks q l = some e ∧
      (e.instruction = true ∨ FwdReachable blocksN blocks tdIcs mIds q l)

/-! Theorems.  Auxiliary lemmas come first, then for each claim one
theorem (with, where needed, a witness and a counterexample). -/

theorem initStore_b (r : AdjointRHS) (h : Heap) :
    ((r.initStore h).1)._b = some (r._b.getD h.next) := by
  cases hb : r._b <;> simp [AdjointRHS.initStore, hb, spaceNew]

theorem initStore_of_some (r : AdjointRHS) (h : Heap) (v : Nat)
    (hb : r._b = some v) : r.initStore h = (r, h) := by
  simp [AdjointRHS.initStore, hb]

theorem runRhsOp_isNone (s : AdjointRHS × Heap) (op : RhsOp) :
    ((runRhsOp s op).1)._b.isNone
      = (s.1._b.isNone && !allocatingOp op) := by
  rcases op with t | c | _
  · rcases t with _ | t
    · simp [runRhsOp, AdjointRHS.sub, allocatingOp]
    · rcases hb : s.1._b with _ | v
      · simp only [runRhsOp, AdjointRHS.sub]
        have h1 := initStore_b s.1 s.2
        rcases h2 : s.1.initStore s.2 with ⟨r', h'⟩
        rw [h2] at h1
        simp only at h1
        simp [h1, allocatingOp, hb]
      · simp only [runRhsOp, AdjointRHS.sub]
        rw [initStore_of_some s.1 s.2 v hb]
        simp [hb, allocatingOp]
  · simp only [runRhsOp, AdjointRHS.b]
    have h1 := initStore_b s.1 s.2
    rcases h2 : s.1.initStore s.2 with ⟨r', h'⟩
    rw [h2] at h1
    simp only at h1
    rcases c <;> simp [h1, allocatingOp]
  · simp only [runRhsOp]
    have h1 := initStore_b s.1 s.2
    rcases h2 : s.1.initStore s.2 with ⟨r', h'⟩
    rw [h2] at h1
    simp only at h1
    simp [h2, h1, allocatingOp]

theorem runRhsOps_isNone (ops : List RhsOp) (s : AdjointRHS × Heap) :
    ((runRhsOps ops s).1)._b.isNone
      = (s.1._b.isNone && !ops.any allocatingOp) := by
  induction ops generalizing s with
  | nil => simp [runRhsOps]
  | cons op ops ih =>
    have : runRhsOps (op :: ops) s = runRhsOps ops (runRhsOp s op) := rfl
    rw [this, ih, runRhsOp_isNone]
    simp [Bool.and_assoc]

/-- Claim C5, counterexample: a single `b(copy=False)` call adds no
contribution through `sub` with a non-`None` term, yet `is_empty()`
afterwards is `False` (because `b` triggers allocation), so `is_empty()`
is not equivalent to "no contribution has ever been added via `sub`". -/
theorem claim_C5_counterexample :
    hasRealSub [RhsOp.bOp false] = false ∧
    ((runRhsOps [RhsOp.bOp false]
        (AdjointRHS.ofVar ⟨0, 0, .primal, none⟩, ⟨0, fun _ => 0⟩)).1).is_empty
      = false := by
  constructor
  · rfl
  · rfl

/-- Claim C5, amended: for every `AdjointRHS` bound to a forward variable
`x` and every sequence of operations on it, `is_empty()` is `True` iff the
internal storage was never allocated, i.e. iff the sequence contains no
`sub` with a non-`None` term, no `b()` call and no `initialize()` call; in
particular any number of `sub(None)` calls leaves `is_empty() == True`,
and `b()` triggers allocation. -/
theorem claim_C5_amended (x : Var) (h0 : Heap) (ops : List RhsOp) :
    ((runRhsOps ops (AdjointRHS.ofVar x, h0)).1).is_empty
      = !ops.any allocatingOp := by
  have h := runRhsOps_isNone ops (AdjointRHS.ofVar x, h0)
  simpa [AdjointRHS.is_empty, AdjointRHS.ofVar] using h

theorem runRhsOp_keeps_b (r : AdjointRHS) (h : Heap) (v : Nat)
    (hb : r._b = some v) (op : RhsOp) :
    ((runRhsOp (r, h) op).1)._b = some v := by
  rcases op with t | c | _
  · rcases t with _ | t
    · simpa [runRhsOp, AdjointRHS.sub] using hb
    · simp [runRhsOp, AdjointRHS.sub, initStore_of_some r h v hb, hb]
  · rcases c <;>
      simp [runRhsOp, AdjointRHS.b, initStore_of_some r h v hb, hb]
  · simp [runRhsOp, initStore_of_some r h v hb, hb]

theorem runRhsOps_keeps_b (ops : List RhsOp) (r : AdjointRHS) (h : Heap)
    (v : Nat) (hb : r._b = some v) :
    ((runRhsOps ops (r, h)).1)._b = some v := by
  induction ops generalizing r h with
  | nil => simpa [runRhsOps] using hb
  | cons op ops ih =>
    have h1 : runRhsOps (op :: ops) (r, h) = runRhsOps ops (runRhsOp (r, h) op) := rfl
    rw [h1]
    rcases h2 : runRhsOp (r, h) op with ⟨r', h'⟩
    have h3 := runRhsOp_keeps_b r h v hb op
    rw [h2] at h3
    exact ih r' h' h3

theorem sub_none_id (s : AdjointRHS × Heap) :
    runRhsOp s (RhsOp.subOp none) = s := rfl

/-- Claim C6: `sub(None)` any number of times leaves the state (hence
`is_empty() == True`) unchanged; the first `sub(term)` with a non-`None`
term allocates the fresh internal variable and flips `is_empty()` to
`False`; once allocated, the internal variable survives any further
operations, every `b(copy=False)` call returns exactly that internal
object with the state unchanged, and `b(copy=True)` returns a distinct
fresh copy. -/
theorem claim_C6 :
    (∀ (x : Var) (h0 : Heap) (nn : Nat),
      runRhsOps (List.replicate nn (RhsOp.subOp none))
          (AdjointRHS.ofVar x, h0) = (AdjointRHS.ofVar x, h0) ∧
      (AdjointRHS.ofVar x).is_empty = true) ∧
    (∀ (t : Int) (r : AdjointRHS) (h : Heap), r._b = none →
      ((AdjointRHS.sub (some t) r h).1)._b = some h.next ∧
      ((AdjointRHS.sub (some t) r h).1).is_empty = false) ∧
    (∀ (ops : List RhsOp) (r : AdjointRHS) (h : Heap) (v : Nat),
      r._b = some v → ((runRhsOps ops (r, h)).1)._b = some v) ∧
    (∀ (r : AdjointRHS) (h : Heap) (v : Nat),
      r._b = some v → AdjointRHS.b false r h = (v, r, h)) ∧
    (∀ (r : AdjointRHS) (h : Heap) (v : Nat),
      r._b = some v → v < h.next → (AdjointRHS.b true r h).1 ≠ v) := by
  refine ⟨?_, ?_, ?_, ?_, ?_⟩
  · intro x h0 nn
    refine ⟨?_, rfl⟩
    induction nn with
    | zero => rfl
    | succ nn ih =>
      have h1 : List.replicate (nn + 1) (RhsOp.subOp none)
          = RhsOp.subOp none :: List.replicate nn (RhsOp.subOp none) := rfl
      rw [h1]
      have h2 : runRhsOps (RhsOp.subOp none :: List.replicate nn (RhsOp.subOp none))
            (AdjointRHS.ofVar x, h0)
          = runRhsOps (List.replicate nn (RhsOp.subOp none))
            (runRhsOp (AdjointRHS.ofVar x, h0) (RhsOp.subOp none)) := rfl
      rw [h2, sub_none_id]
      exact ih
  · intro t r h hb
    rcases r with ⟨sp, st, _⟩
    simp only at hb
    subst hb
    constructor
    · rfl
    · rfl
  · intro ops r h v hb
    exact runRhsOps_keeps_b ops r h v hb
  · intro r h v hb
    rcases r with ⟨sp, st, rb⟩
    simp only at hb
    subst hb
    rfl
  · intro r h v hb hlt
    rcases r with ⟨sp, st, rb⟩
    simp only at hb
    subst hb
    have h1 : (AdjointRHS.b true ⟨sp, st, some v⟩ h).1 = h.next := rfl
    rw [h1]
    omega

/-- Claim C6, witness: with a fresh `AdjointRHS`, the first
`sub(2)` allocates object 0; with an `AdjointRHS` holding object 7 on a
heap whose allocator is at 8, `b(copy=False)` returns object 7 with the
state unchanged while `b(copy=True)` returns a different object. -/
theorem claim_C6_witness :
    ((AdjointRHS.sub (some 2) (AdjointRHS.ofVar ⟨1, 0, .primal, none⟩)
        ⟨0, fun _ => 0⟩).1)._b = some 0 ∧
    AdjointRHS.b false ⟨0, .primal, some 7⟩ ⟨8, fun _ => 0⟩
      = (7, ⟨0, .primal, some 7⟩, ⟨8, fun _ => 0⟩) ∧
    (AdjointRHS.b true ⟨0, .primal, some 7⟩ ⟨8, fun _ => 0⟩).1 ≠ 7 := by
  refine ⟨?_, ?_, ?_⟩
  · exact (claim_C6.2.1 2 (AdjointRHS.ofVar ⟨1, 0, .primal, none⟩)
      ⟨0, fun _ => 0⟩ rfl).1
  · exact claim_C6.2.2.2.1 ⟨0, .primal, some 7⟩ ⟨8, fun _ => 0⟩ 7 rfl
  · exact claim_C6.2.2.2.2 ⟨0, .primal, some 7⟩ ⟨8, fun _ => 0⟩ 7 rfl
      (by decide)

theorem Ball_fold_length (copy : Bool) (l : List AdjointRHS)
    (vs : List Nat) (bs : List AdjointRHS) (h : Heap) :
    (l.foldl
      (fun acc rhs =>
        let z := AdjointRHS.b copy rhs acc.2.2
        (acc.1 ++ [z.1], acc.2.1 ++ [z.2.1], z.2.2))
      (vs, bs, h)).1.length = vs.length + l.length := by
  induction l generalizing vs bs h with
  | nil => simp
  | cons rhs l ih =>
    simp only [List.foldl_cons]
    rw [ih]
    simp
    omega

/-- Claim C10: `AdjointEquationRHS.b` succeeds exactly when the equation
has a single forward output, in which case it returns the single child's
`b(copy)`; with zero or several outputs the tuple unpacking `b, = self._B`
fails before any child is touched (modelled by `none`), while `B(copy)`
returns one value per output for any number of outputs. -/
theorem claim_C10 (eq : Eqn) (h : Heap) (copy : Bool) :
    ((AdjointEquationRHS.b copy (AdjointEquationRHS.ofEqn eq) h).isSome
        ↔ eq.outs.length = 1) ∧
    (∀ x, eq.outs = [x] →
      AdjointEquationRHS.b copy (AdjointEquationRHS.ofEqn eq) h =
        some ((AdjointRHS.b copy (AdjointRHS.ofVar x) h).1,
          ⟨[(AdjointRHS.b copy (AdjointRHS.ofVar x) h).2.1]⟩,
          (AdjointRHS.b copy (AdjointRHS.ofVar x) h).2.2)) ∧
    ((AdjointEquationRHS.Ball copy (AdjointEquationRHS.ofEqn eq) h).1.length
        = eq.outs.length) := by
  refine ⟨?_, ?_, ?_⟩
  · rcases houts : eq.outs with _ | ⟨x, _ | ⟨y, l⟩⟩ <;>
      simp [AdjointEquationRHS.b, AdjointEquationRHS.ofEqn, houts]
  · intro x houts
    simp only [AdjointEquationRHS.b, AdjointEquationRHS.ofEqn, houts,
      List.map_cons, List.map_nil]
  · simp only [AdjointEquationRHS.Ball, AdjointEquationRHS.ofEqn]
    rw [Ball_fold_length]
    simp

/-- Claim C10, witness: for a two-output equation `b` fails, for a
one-output equation it succeeds, and `B` always produces one value per
output. -/
theorem claim_C10_witness :
    ((AdjointEquationRHS.b false
        (AdjointEquationRHS.ofEqn ⟨[mkV 0, mkV 1], [], [], [], false, false, 0, none, []⟩)
        ⟨0, fun _ => 0⟩).isSome ↔ ([mkV 0, mkV 1].length = 1)) ∧
    (AdjointEquationRHS.b false
        (AdjointEquationRHS.ofEqn ⟨[mkV 5], [], [], [], false, false, 0, none, []⟩)
        ⟨0, fun _ => 0⟩ =
      some ((AdjointRHS.b false (AdjointRHS.ofVar (mkV 5)) ⟨0, fun _ => 0⟩).1,
        ⟨[(AdjointRHS.b false (AdjointRHS.ofVar (mkV 5)) ⟨0, fun _ => 0⟩).2.1]⟩,
        (AdjointRHS.b false (AdjointRHS.ofVar (mkV 5)) ⟨0, fun _ => 0⟩).2.2)) := by
  constructor
  · exact (claim_C10 ⟨[mkV 0, mkV 1], [], [], [], false, false, 0, none, []⟩
      ⟨0, fun _ => 0⟩ false).1
  · exact (claim_C10 ⟨[mkV 5], [], [], [], false, false, 0, none, []⟩
      ⟨0, fun _ => 0⟩ false).2.1 (mkV 5) rfl

theorem popEmptyTail_getLast (l : List (Nat × AdjointBlockRHS))
    (b : Nat × AdjointBlockRHS) (hb : (popEmptyTail l).getLast? = some b) :
    b.2.is_empty = false := by
  induction l with
  | nil => simp [popEmptyTail] at hb
  | cons x xs ih =>
    simp only [popEmptyTail] at hb
    by_cases hc : popEmptyTail xs = [] ∧ x.2.is_empty = true
    · rw [if_pos hc] at hb
      simp at hb
    · rw [if_neg hc] at hb
      rcases hres : popEmptyTail xs with _ | ⟨y, ys⟩
      · rw [hres] at hb
        rw [List.getLast?_singleton] at hb
        have hx : b = x := by
          simpa using hb.symm
        have hne : ¬ x.2.is_empty = true := fun he => hc ⟨hres, he⟩
        rw [hx]
        simpa using hne
      · rw [hres] at hb
        rw [List.getLast?_cons_cons] at hb
        rw [← hres] at hb
        exact ih hb

/-- Claim C3: in every `AdjointModelRHS` state reachable by construction
from any blocks followed by any sequence of successful `pop()` calls,
trailing empty blocks have been removed, so the last retained
`AdjointBlockRHS`, if any remains, is not empty. -/
theorem claim_C3 (s : AdjointModelRHS) (hs : ModelReachable s)
    (b : Nat × AdjointBlockRHS) (hb : s._B.getLast? = some b) :
    b.2.is_empty = false := by
  induction hs generalizing b with
  | ofBlocks blocksN blocks =>
    exact popEmptyTail_getLast _ b hb
  | pop s res _hreach hpop _ih =>
    simp only [AdjointModelRHS.pop] at hpop
    rcases h1 : s._B.getLast? with _ | ⟨n, blk⟩
    · rw [h1] at hpop
      simp at hpop
    · rw [h1] at hpop
      simp only at hpop
      rcases h2 : blk.pop with _ | ⟨i, B, blk'⟩
      · rw [h2] at hpop
        simp at hpop
      · rw [h2] at hpop
        simp only [Option.some.injEq] at hpop
        rw [← hpop] at hb
        simp only at hb
        exact popEmptyTail_getLast _ b hb

/-- Claim C3, witness: the model built from one block holding one equation
is reachable, and its last block is non-empty. -/
theorem claim_C3_witness :
    (AdjointModelRHS.ofBlocks [0]
        (fun _ => [⟨[mkV 0], [mkV 0], [], [], false, false, 0, none, []⟩]))._B.getLast?
      = some (0, AdjointBlockRHS.ofBlock
          [⟨[mkV 0], [mkV 0], [], [], false, false, 0, none, []⟩]) ∧
    (0, AdjointBlockRHS.ofBlock
        [⟨[mkV 0], [mkV 0], [], [], false, false, 0, none, []⟩]).2.is_empty
      = false := by
  refine ⟨by decide, ?_⟩
  exact claim_C3 _
    (ModelReachable.ofBlocks [0]
      (fun _ => [⟨[mkV 0], [mkV 0], [], [], false, false, 0, none, []⟩]))
    _ (by decide)

theorem set_not_solved_active (g : Graph) (jI n i : Nat) :
    (g.set_not_solved jI n i).active = g.active := rfl

theorem applySNS_active (l : List Slot) (g : Graph) :
    (applySetNotSolved l g).active = g.active := by
  induction l generalizing g with
  | nil => rfl
  | cons x l ih =>
    have h1 : applySetNotSolved (x :: l) g
        = applySetNotSolved l (g.set_not_solved x.1 x.2.1 x.2.2) := rfl
    rw [h1, ih, set_not_solved_active]

theorem applySNS_solved_mono (l : List Slot) (g : Graph) (jI n i : Nat)
    (h : (applySetNotSolved l g).solved jI n i = true) :
    g.solved jI n i = true := by
  induction l generalizing g with
  | nil => exact h
  | cons x l ih =>
    have h1 : applySetNotSolved (x :: l) g
        = applySetNotSolved l (g.set_not_solved x.1 x.2.1 x.2.2) := rfl
    rw [h1] at h
    have h2 := ih _ h
    simp only [Graph.set_not_solved] at h2
    by_cases hc : jI = x.1 ∧ n = x.2.1 ∧ i = x.2.2
    · rw [if_pos hc] at h2
      exact absurd h2 (by simp)
    · rwa [if_neg hc] at h2

theorem mkGraph_solved_eq_active (Js M : List Var) (blocksN : List Nat)
    (blocks : Nat → List Eqn) (pf pa : Bool) :
    (mkGraph Js M blocksN blocks pf pa).solved
      = (mkGraph Js M blocksN blocks pf pa).active := rfl

/-- Claim C9: in a freshly built `TransposeComputationalGraph` the solved
table is a copy of the active table, and `set_not_solved` (the only
mutation of the solved flags) never sets a flag, so after any sequence of
`set_not_solved` calls `is_solved` still implies `is_active`. -/
theorem claim_C9 (Js M : List Var) (blocksN : List Nat)
    (blocks : Nat → List Eqn) (pf pa : Bool) (l : List Slot) (jI n i : Nat)
    (h : (applySetNotSolved l (mkGraph Js M blocksN blocks pf pa)).is_solved
        jI n i = true) :
    (applySetNotSolved l (mkGraph Js M blocksN blocks pf pa)).is_active
        jI n i = true := by
  simp only [Graph.is_solved] at h
  simp only [Graph.is_active, applySNS_active]
  have h2 := applySNS_solved_mono l _ jI n i h
  rw [mkGraph_solved_eq_active] at h2
  exact h2

/-- Claim C9, witness: a one-equation tape with pruning disabled and one
`set_not_solved` call at a different key; equation `(0, 0)` stays solved
and is indeed active. -/
theorem claim_C9_witness :
    (applySetNotSolved [(0, 1, 1)]
        (mkGraph [mkV 3] [] [0]
          (fun _ => [⟨[mkV 3], [mkV 3], [], [], false, false, 0, none, []⟩])
          false false)).is_solved 0 0 0 = true ∧
    (applySetNotSolved [(0, 1, 1)]
        (mkGraph [mkV 3] [] [0]
          (fun _ => [⟨[mkV 3], [mkV 3], [], [], false, false, 0, none, []⟩])
          false false)).is_active 0 0 0 = true := by
  refine ⟨by decide, ?_⟩
  exact claim_C9 [mkV 3] [] [0]
    (fun _ => [⟨[mkV 3], [mkV 3], [], [], false, false, 0, none, []⟩])
    false false [(0, 1, 1)] 0 0 0 (by decide)

theorem aget_aset_self {β : Type} (l : List (CKey × β)) (k : CKey) (v : β) :
    aget (aset l k v) k = some v := by
  induction l with
  | nil => simp [aset, aget]
  | cons kv t ih =>
    by_cases hk : k = kv.1
    · simp [aset, hk, aget]
    · simp [aset, hk, aget, ih]

theorem aget_aset_ne {β : Type} (l : List (CKey × β)) (k k' : CKey) (v : β)
    (h : k' ≠ k) : aget (aset l k v) k' = aget l k' := by
  induction l with
  | nil => simp [aset, aget, h]
  | cons kv t ih =>
    by_cases hk : k = kv.1
    · subst hk
      simp [aset, aget, h]
    · by_cases hk' : k' = kv.1
      · simp [aset, hk, aget, hk']
      · simp [aset, hk, aget, hk', ih]

theorem aget_foldl_aset (als : List CKey) (cc : List (CKey × Val)) (v : Val)
    (k : CKey) :
    aget (als.foldl (fun cc a => aset cc a v) cc) k
      = if k ∈ als then some v else aget cc k := by
  induction als generalizing cc with
  | nil => simp
  | cons a t ih =>
    simp only [List.foldl_cons]
    rw [ih]
    by_cases hm : k ∈ t
    · simp [hm]
    · by_cases hk : k = a
      · subst hk
        simp [hm, aget_aset_self]
      · simp [hm, hk, aget_aset_ne _ _ _ _ hk]

/-- Claim C8, counterexample: with `store=True` but a key that has never
been registered in `_keys`, `AdjointCache.cache` leaves the cache
completely unchanged — nothing is materialized — contradicting the claim
that `store=True` alone forces storage. -/
theorem claim_C8_counterexample :
    (AdjointCache.cache ⟨[], [], none⟩ (0, 0, 0) [3] true true
        ⟨0, fun _ => 0⟩).1 = (⟨[], [], none⟩ : AdjointCache) ∧
    aget ((AdjointCache.cache ⟨[], [], none⟩ (0, 0, 0) [3] true true
        ⟨0, fun _ => 0⟩).1)._cache (0, 0, 0) = none := by
  constructor
  · rfl
  · rfl

/-- Claim C8, amended: `cache(J_i, n, i, adj_X, copy, store)` acts only
when the key is registered in the alias map `_keys` and, in addition,
`store=True` or its alias list is non-empty; in that case the stored value
is the existing cached value for the key if present, else a copy of
`adj_X` when `copy=True`, else `adj_X` itself, and this same value object
is stored under every registered alias key (and under the key itself when
`store=True`); in every other case — including `store=True` for an
unregistered key — the call leaves the cache unchanged. -/
theorem claim_C8_amended (c : AdjointCache) (k : CKey) (adjX : Val)
    (copy store : Bool) (h : Heap) :
    match aget c._keys k with
    | none => AdjointCache.cache c k adjX copy store h = (c, h)
    | some als =>
      if store ∨ als ≠ [] then
        (∀ a ∈ als,
          aget ((AdjointCache.cache c k adjX copy store h).1)._cache a
            = some (match aget c._cache k with
                | some v0 => v0
                | none => if copy then (copyVals adjX h).1 else adjX)) ∧
        (store = true →
          aget ((AdjointCache.cache c k adjX copy store h).1)._cache k
            = some (match aget c._cache k with
                | some v0 => v0
                | none => if copy then (copyVals adjX h).1 else adjX)) ∧
        ((AdjointCache.cache c k adjX copy store h).1)._keys = c._keys ∧
        ((AdjointCache.cache c k adjX copy store h).1)._cache_key
          = c._cache_key
      else AdjointCache.cache c k adjX copy store h = (c, h) := by
  have hval :
      (match aget c._cache k with
        | some v0 => (v0, h)
        | none => if copy then copyVals adjX h else (adjX, h)).1
      = (match aget c._cache k with
        | some v0 => v0
        | none => if copy then (copyVals adjX h).1 else adjX) := by
    rcases aget c._cache k with _ | v0
    · rcases copy <;> simp
    · simp
  rcases hk : aget c._keys k with _ | als
  · simp only [AdjointCache.cache, hk]
  · simp only [AdjointCache.cache, hk]
    by_cases hcond : store = true ∨ als ≠ []
    · rw [if_pos hcond, if_pos hcond]
      refine ⟨?_, ?_, rfl, rfl⟩
      · intro a ha
        rw [aget_foldl_aset, if_pos ha, hval]
      · intro hs
        rw [aget_foldl_aset]
        by_cases hmem : k ∈ als
        · rw [if_pos hmem, hval]
        · rw [if_neg hmem, hs, if_pos rfl, aget_aset_self, hval]
    · rw [if_neg hcond, if_neg hcond]

/-- Claim C8, witness: a key registered with one alias and `store=False`:
the un-copied value lands under the alias key. -/
theorem claim_C8_witness :
    ∀ a ∈ [((1 : Nat), (1 : Nat), (1 : Nat))],
      aget ((AdjointCache.cache ⟨[], [((0, 0, 0), [(1, 1, 1)])], none⟩
          (0, 0, 0) [9] false false ⟨0, fun _ => 0⟩).1)._cache a
        = some [9] := by
  have hth := claim_C8_amended ⟨[], [((0, 0, 0), [(1, 1, 1)])], none⟩
    (0, 0, 0) [9] false false ⟨0, fun _ => 0⟩
  exact hth.1

theorem foldl_setFalse_cache (l : List (CKey × Val)) (s : CKey → Bool)
    (q : CKey) :
    l.foldl (fun s kv => fun q' => if q' = kv.1 then false else s q') s q
      = if (aget l q).isSome then false else s q := by
  induction l generalizing s with
  | nil => simp [aget]
  | cons kv t ih =>
    simp only [List.foldl_cons]
    rw [ih]
    by_cases hq : q = kv.1
    · subst hq
      by_cases hmem : (aget t kv.1).isSome <;> simp [aget, hmem]
    · simp [aget, hq]

theorem foldl_setFalse_one (als : List CKey) (s : CKey → Bool) (q : CKey) :
    als.foldl (fun s k => fun q' => if q' = k then false else s q') s q
      = if q ∈ als then false else s q := by
  induction als generalizing s with
  | nil => simp
  | cons a t ih =>
    simp only [List.foldl_cons]
    rw [ih]
    by_cases hmem : q ∈ t
    · simp [hmem]
    · by_cases hq : q = a <;> simp [hmem, hq]

theorem foldl_setFalse_keys (l : List (CKey × List CKey)) (s : CKey → Bool)
    (q : CKey) :
    l.foldl
        (fun s kv =>
          kv.2.foldl (fun s k => fun q' => if q' = k then false else s q') s)
        s q
      = if l.any (fun rk => decide (q ∈ rk.2)) then false else s q := by
  induction l generalizing s with
  | nil => simp
  | cons rk t ih =>
    simp only [List.foldl_cons]
    rw [ih]
    by_cases hany : t.any (fun rk => decide (q ∈ rk.2))
    · simp [hany]
    · rw [foldl_setFalse_one]
      by_cases hmem : q ∈ rk.2 <;> simp [hany, hmem]

theorem markSolved_spec (c : AdjointCache) (s : CKey → Bool) (q : CKey) :
    markSolved c s q = if markedKey c q then false else s q := by
  simp only [markSolved, markedKey]
  rw [foldl_setFalse_keys, foldl_setFalse_cache]
  by_cases h1 : c._keys.any (fun rk => decide (q ∈ rk.2)) <;>
    by_cases h2 : (aget c._cache q).isSome <;>
      simp [h1, h2]

/-- Claim C7: after `initialize` returns, a key's solved flag on
`transpose_deps` is `False` exactly when the key is in the resulting
cache or is registered as an alias (a member of some alias list of the
resulting `_keys` — these fetch a shared value instead of recomputing);
every other key keeps the solved flag it had before the call, so no other
key is changed by `initialize`. -/
theorem claim_C7 (c : AdjointCache) (jRoots : List Var) (tlmAdj : TlmAdjMap)
    (blocksN : List Nat) (blocks : Nat → List Eqn) (solved : CKey → Bool)
    (cacheDegree : Option Nat) (q : CKey) :
    (AdjointCache.initCache c jRoots tlmAdj blocksN blocks solved
        cacheDegree).2 q
      = if markedKey
            (AdjointCache.initCache c jRoots tlmAdj blocksN blocks solved
              cacheDegree).1 q
        then false
        else solved q :=
  markSolved_spec _ solved q

theorem collectStep_cache_keys (rootIds : List Nat) (n i eqRootId : Nat)
    (solved : CKey → Bool) (st : InitState) (ja : Nat × AdjKey) :
    (collectStep rootIds n i eqRootId solved st ja).cache = st.cache ∧
    (collectStep rootIds n i eqRootId solved st ja).keys = st.keys := by
  unfold collectStep
  by_cases hc : solved (ja.1, n, i) = true ∨ (aget st.cache (ja.1, n, i)).isSome = true
  · rw [if_pos hc]
    exact ⟨rfl, rfl⟩
  · rw [if_neg hc]
    exact ⟨rfl, rfl⟩

theorem collect_fold_cache (rootIds : List Nat) (n i eqRootId : Nat)
    (solved : CKey → Bool) (entries : List (Nat × AdjKey)) (st : InitState) :
    (entries.foldl (collectStep rootIds n i eqRootId solved) st).cache
      = st.cache := by
  induction entries generalizing st with
  | nil => rfl
  | cons ja t ih =>
    simp only [List.foldl_cons]
    rw [ih]
    exact (collectStep_cache_keys rootIds n i eqRootId solved st ja).1

theorem rootPairStep_cache_mono
    (acc : InitState × List ((Nat × AdjKey) × CKey))
    (entry : CKey × (Nat × AdjKey)) (k : CKey) (v : Val)
    (h : aget acc.1.cache k = some v) :
    aget (rootPairStep acc entry).1.cache k = some v := by
  unfold rootPairStep
  rcases hr : aget acc.2 entry.2 with _ | root
  · simp only [hr]
    exact h
  · simp only [hr]
    by_cases hc : (aget acc.1.cache entry.1).isSome = true ∧
        (aget acc.1.cache root).isNone = true
    · rw [if_pos hc]
      by_cases hk : k = root
      · subst hk
        rw [h] at hc
        simp at hc
      · rw [aget_aset_ne _ _ _ _ hk]
        exact h
    · rw [if_neg hc]
      exact h

theorem rootPairs_fold_cache_mono (entries : List (CKey × (Nat × AdjKey)))
    (acc : InitState × List ((Nat × AdjKey) × CKey)) (k : CKey) (v : Val)
    (h : aget acc.1.cache k = some v) :
    aget (entries.foldl rootPairStep acc).1.cache k = some v := by
  induction entries generalizing acc with
  | nil => exact h
  | cons e t ih =>
    simp only [List.foldl_cons]
    exact ih _ (rootPairStep_cache_mono acc e k v h)

theorem initEqStep_cache_mono (rootIds : List Nat) (tlmAdj : TlmAdjMap)
    (solved : CKey → Bool) (st : InitState) (pe : Pos × Eqn) (k : CKey)
    (v : Val) (h : aget st.cache k = some v) :
    aget (initEqStep rootIds tlmAdj solved st pe).cache k = some v := by
  unfold initEqStep
  by_cases hm : pe.2.marker
  · simp only [hm, if_true]
    exact h
  · simp only [hm, Bool.false_eq_true, if_false]
    apply rootPairs_fold_cache_mono
    simp only
    rw [collect_fold_cache]
    exact h

theorem initLoop_fold_cache_mono (rootIds : List Nat) (tlmAdj : TlmAdjMap)
    (solved : CKey → Bool) (L : List (Pos × Eqn)) (st : InitState) (k : CKey)
    (v : Val) (h : aget st.cache k = some v) :
    aget (L.foldl (initEqStep rootIds tlmAdj solved) st).cache k = some v := by
  induction L generalizing st with
  | nil => exact h
  | cons pe t ih =>
    simp only [List.foldl_cons]
    exact ih _ (initEqStep_cache_mono rootIds tlmAdj solved st pe k v h)

theorem rootPairStep_cache_empty
    (acc : InitState × List ((Nat × AdjKey) × CKey))
    (entry : CKey × (Nat × AdjKey)) (h : acc.1.cache = []) :
    (rootPairStep acc entry).1.cache = [] := by
  unfold rootPairStep
  rcases hr : aget acc.2 entry.2 with _ | root
  · simp only [hr]
    exact h
  · simp only [hr]
    rw [if_neg]
    · exact h
    · rintro ⟨h1, -⟩
      rw [h] at h1
      simp [aget] at h1

theorem rootPairs_fold_cache_empty (entries : List (CKey × (Nat × AdjKey)))
    (acc : InitState × List ((Nat × AdjKey) × CKey))
    (h : acc.1.cache = []) :
    (entries.foldl rootPairStep acc).1.cache = [] := by
  induction entries generalizing acc with
  | nil => exact h
  | cons e t ih =>
    simp only [List.foldl_cons]
    exact ih _ (rootPairStep_cache_empty acc e h)

theorem initEqStep_cache_empty (rootIds : List Nat) (tlmAdj : TlmAdjMap)
    (solved : CKey → Bool) (st : InitState) (pe : Pos × Eqn)
    (h : st.cache = []) :
    (initEqStep rootIds tlmAdj solved st pe).cache = [] := by
  unfold initEqStep
  by_cases hm : pe.2.marker
  · simp only [hm, if_true]
    exact h
  · simp only [hm, Bool.false_eq_true, if_false]
    apply rootPairs_fold_cache_empty
    simp only
    rw [collect_fold_cache]
    exact h

theorem initLoop_fold_cache_empty (rootIds : List Nat) (tlmAdj : TlmAdjMap)
    (solved : CKey → Bool) (L : List (Pos × Eqn)) (st : InitState)
    (h : st.cache = []) :
    (L.foldl (initEqStep rootIds tlmAdj solved) st).cache = [] := by
  induction L generalizing st with
  | nil => exact h
  | cons pe t ih =>
    simp only [List.foldl_cons]
    exact ih _ (initEqStep_cache_empty rootIds tlmAdj solved st pe h)

/-- Claim C2, counterexample: two `initialize` calls whose derived sets of
`(root functional id, derivative-chain key)` pairs are identical — only
the order in which the two functionals carry the two chain keys is
swapped — yet the cache-key tuples differ, so the second call clears a
previously cached entry that the claim says must remain. -/
theorem claim_C2_counterexample :
    (computeCacheKey (rootIdsOf [mkV 5, mkV 4])
        [([], [(0, [0]), (1, [1])])]).toFinset
      = (computeCacheKey (rootIdsOf [mkV 4, mkV 5])
        [([], [(0, [1]), (1, [0])])]).toFinset ∧
    aget ((⟨[((0, 0, 0), [7])], [],
        some (computeCacheKey (rootIdsOf [mkV 5, mkV 4])
          [([], [(0, [0]), (1, [1])])])⟩ : AdjointCache))._cache (0, 0, 0)
      = some [7] ∧
    aget ((AdjointCache.initCache
        ⟨[((0, 0, 0), [7])], [],
          some (computeCacheKey (rootIdsOf [mkV 5, mkV 4])
            [([], [(0, [0]), (1, [1])])])⟩
        [mkV 4, mkV 5] [([], [(0, [1]), (1, [0])])] [] (fun _ => [])
        (fun _ => false) none).1)._cache (0, 0, 0)
      = none := by
  refine ⟨by decide, by decide, by decide⟩

/-- Claim C2, amended: with `cache_degree=None`, `initialize` stores the
cache-key *tuple* (the `(J_i, adj_tlm_key)` pairs sorted, each `J_i`
replaced by its root id).  For a second call on a state whose stored key
came from the first call: if the two tuples differ the second call clears
the cache (afterwards it holds no entries at all); if the tuples are
equal, every entry cached before the second call is still present, is
retrievable via `get`, and its key is marked not-solved on
`transpose_deps` so that it is not recomputed.  (The claim's comparison of
the *sets* of pairs is refuted by the counterexample: the code compares
the tuples.) -/
theorem claim_C2_amended (c : AdjointCache) (jRoots1 jRoots2 : List Var)
    (tlmAdj1 tlmAdj2 : TlmAdjMap) (blocksN : List Nat)
    (blocks : Nat → List Eqn) (solved : CKey → Bool) (h : Heap)
    (hck : c._cache_key
      = some (computeCacheKey (rootIdsOf jRoots1) tlmAdj1)) :
    (∀ c0 : AdjointCache,
      ((AdjointCache.initCache c0 jRoots1 tlmAdj1 blocksN blocks solved
          none).1)._cache_key
        = some (computeCacheKey (rootIdsOf jRoots1) tlmAdj1)) ∧
    (computeCacheKey (rootIdsOf jRoots2) tlmAdj2
        ≠ computeCacheKey (rootIdsOf jRoots1) tlmAdj1 →
      ((AdjointCache.initCache c jRoots2 tlmAdj2 blocksN blocks solved
          none).1)._cache = []) ∧
    (computeCacheKey (rootIdsOf jRoots2) tlmAdj2
        = computeCacheKey (rootIdsOf jRoots1) tlmAdj1 →
      ∀ k v, aget c._cache k = some v →
        aget ((AdjointCache.initCache c jRoots2 tlmAdj2 blocksN blocks
            solved none).1)._cache k = some v ∧
        AdjointCache.get
            ((AdjointCache.initCache c jRoots2 tlmAdj2 blocksN blocks
              solved none).1) k false h = some (v, h) ∧
        (AdjointCache.initCache c jRoots2 tlmAdj2 blocksN blocks solved
            none).2 k = false) := by
  have hfst : ∀ (c' : AdjointCache) (jR : List Var) (tA : TlmAdjMap),
      ((AdjointCache.initCache c' jR tA blocksN blocks solved none).1)._cache
        = (runInitLoop (rootIdsOf jR) tA solved blocksN blocks
            (clearIfNewKey c' (computeCacheKey (rootIdsOf jR) tA))._cache).cache :=
    fun _ _ _ => rfl
  refine ⟨fun c0 => rfl, ?_, ?_⟩
  · intro hne
    have h1 : clearIfNewKey c (computeCacheKey (rootIdsOf jRoots2) tlmAdj2)
        = AdjointCache.clear c := by
      unfold clearIfNewKey
      rw [if_neg]
      rw [hck]
      intro hcon
      injection hcon with hcon'
      exact hne hcon'.symm
    rw [hfst, h1]
    exact initLoop_fold_cache_empty _ _ _ _ _ rfl
  · intro heq k v hkv
    have h1 : clearIfNewKey c (computeCacheKey (rootIdsOf jRoots2) tlmAdj2)
        = c := by
      unfold clearIfNewKey
      rw [if_pos]
      rw [hck, heq]
    have h2 : aget ((AdjointCache.initCache c jRoots2 tlmAdj2 blocksN blocks
        solved none).1)._cache k = some v := by
      rw [hfst, h1]
      exact initLoop_fold_cache_mono _ _ _ _ _ k v hkv
    refine ⟨h2, ?_, ?_⟩
    · simp [AdjointCache.get, h2]
    · have hm : markedKey ((AdjointCache.initCache c jRoots2 tlmAdj2 blocksN
          blocks solved none).1) k = true := by
        simp [markedKey, h2]
      have h3 := markSolved_spec ((AdjointCache.initCache c jRoots2 tlmAdj2
        blocksN blocks solved none).1) solved k
      rw [if_pos hm] at h3
      exact h3

/-- Claim C2 (amended), witness: a second `initialize` call with the same
functional and derivative chains keeps the cached entry `((0,0,0), [7])`
present, retrievable via `get`, and marked not-solved. -/
theorem claim_C2_witness :
    aget ((AdjointCache.initCache
        ⟨[((0, 0, 0), [7])], [],
          some (computeCacheKey (rootIdsOf [mkV 5]) [([], [(0, [0])])])⟩
        [mkV 5] [([], [(0, [0])])] [] (fun _ => []) (fun _ => true)
        none).1)._cache (0, 0, 0) = some [7] ∧
    AdjointCache.get
        ((AdjointCache.initCache
          ⟨[((0, 0, 0), [7])], [],
            some (computeCacheKey (rootIdsOf [mkV 5]) [([], [(0, [0])])])⟩
          [mkV 5] [([], [(0, [0])])] [] (fun _ => []) (fun _ => true)
          none).1) (0, 0, 0) false ⟨0, fun _ => 0⟩
      = some ([7], ⟨0, fun _ => 0⟩) ∧
    (AdjointCache.initCache
        ⟨[((0, 0, 0), [7])], [],
          some (computeCacheKey (rootIdsOf [mkV 5]) [([], [(0, [0])])])⟩
        [mkV 5] [([], [(0, [0])])] [] (fun _ => []) (fun _ => true)
        none).2 (0, 0, 0) = false :=
  (claim_C2_amended
    ⟨[((0, 0, 0), [7])], [],
      some (computeCacheKey (rootIdsOf [mkV 5]) [([], [(0, [0])])])⟩
    [mkV 5] [mkV 5] [([], [(0, [0])])] [([], [(0, [0])])] []
    (fun _ => []) (fun _ => true) ⟨0, fun _ => 0⟩ rfl).2.2 rfl
    (0, 0, 0) [7] (by decide)

theorem lastIdxOf_none_iff (d : Nat) (l : List Var) :
    lastIdxOf d l = none ↔ d ∉ l.map Var.id := by
  induction l with
  | nil => simp [lastIdxOf]
  | cons x t ih =>
    simp only [lastIdxOf]
    rcases ht : lastIdxOf d t with _ | m
    · rw [ht] at ih
      by_cases hx : d = x.id <;> simp [hx, ih.1 rfl]
    · have : d ∈ t.map Var.id := by
        by_contra hc
        rw [ih.2 hc] at ht
        exact Option.noConfusion ht
      simp [this]

theorem lastIdxOf_get (d : Nat) (l : List Var)
    (hnd : (l.map Var.id).Nodup) (m : Nat) :
    lastIdxOf d l = some m ↔ (l.get? m).map Var.id = some d := by
  induction l generalizing m with
  | nil => simp [lastIdxOf]
  | cons x t ih =>
    simp only [List.map_cons, List.nodup_cons] at hnd
    simp only [lastIdxOf]
    rcases ht : lastIdxOf d t with _ | m'
    · have hdt : d ∉ t.map Var.id := (lastIdxOf_none_iff d t).mp ht
      by_cases hx : d = x.id
      · subst hx
        simp only [if_pos rfl]
        constructor
        · rintro h
          injection h with h
          subst h
          simp
        · intro h
          rcases m with _ | m'
          · rfl
          · exfalso
            simp only [List.get?_cons_succ] at h
            apply hdt
            rcases hm : t.get? m' with _ | y
            · rw [hm] at h
              exact Option.noConfusion h
            · rw [hm] at h
              injection h with h
              rw [← h]
              exact List.mem_map_of_mem Var.id (List.get?_mem hm)
      · simp only [if_neg hx]
        constructor
        · intro h
          exact Option.noConfusion h
        · intro h
          rcases m with _ | m'
          · simp only [List.get?_cons_zero, Option.map_some'] at h
            injection h with h
            exact absurd h.symm hx
          · exfalso
            simp only [List.get?_cons_succ] at h
            rw [(ih hnd.2 m').mpr h] at ht
            exact Option.noConfusion ht
    · constructor
      · intro h
        injection h with h
        subst h
        simp only [List.get?_cons_succ]
        exact (ih hnd.2 m').mp ht
      · intro h
        rcases m with _ | m''
        · exfalso
          simp only [List.get?_cons_zero, Option.map_some'] at h
          injection h with h
          apply hnd.1
          rw [h]
          have := (ih hnd.2 m').mp ht
          rcases hm : t.get? m' with _ | y
          · rw [hm] at this
            exact Option.noConfusion this
          · rw [hm] at this
            injection this with this
            rw [← this]
            exact List.mem_map_of_mem Var.id (List.get?_mem hm)
        · simp only [List.get?_cons_succ] at h
          have := (ih hnd.2 m'').mpr h
          rw [ht] at this
          injection this with this
          rw [this]

theorem enumFold_fnupd (l : List Var) (k n i : Nat)
    (le0 : Nat → Option Slot) (d : Nat) :
    ((List.enumFrom k l).foldl
        (fun le mx => fun d' => if d' = mx.2.id then some (n, i, mx.1) else le d')
        le0) d
      = match lastIdxOf d l with
        | some m => some (n, i, k + m)
        | none => le0 d := by
  induction l generalizing k le0 with
  | nil => simp [lastIdxOf]
  | cons x t ih =>
    have hcons : List.enumFrom k (x :: t) = (k, x) :: List.enumFrom (k + 1) t := rfl
    rw [hcons]
    simp only [List.foldl_cons]
    rw [ih]
    simp only [lastIdxOf]
    rcases ht : lastIdxOf d t with _ | m
    · by_cases hx : d = x.id <;> simp [hx]
    · simp only []
      have : k + 1 + m = k + (m + 1) := by omega
      rw [this]

theorem enumFold_lastIdx (l : List Var) (k : Nat) (d : Nat)
    (acc : Option Nat) :
    (List.enumFrom k l).foldl
        (fun acc mx => if d = mx.2.id then some mx.1 else acc) acc
      = match lastIdxOf d l with
        | some m => some (k + m)
        | none => acc := by
  induction l generalizing k acc with
  | nil => simp [lastIdxOf]
  | cons x t ih =>
    have hcons : List.enumFrom k (x :: t) = (k, x) :: List.enumFrom (k + 1) t := rfl
    rw [hcons]
    simp only [List.foldl_cons]
    rw [ih]
    simp only [lastIdxOf]
    rcases ht : lastIdxOf d t with _ | m
    · by_cases hx : d = x.id <;> simp [hx]
    · simp only []
      have : k + 1 + m = k + (m + 1) := by omega
      rw [this]

theorem lastOutSlot_eq (e : Eqn) (d : Nat) :
    lastOutSlot e d = lastIdxOf d e.outs := by
  have h := enumFold_lastIdx e.outs 0 d none
  simp only [Nat.zero_add] at h
  have h0 : e.outs.enum = List.enumFrom 0 e.outs := rfl
  unfold lastOutSlot
  rw [h0, h]
  rcases lastIdxOf d e.outs with _ | m <;> rfl

theorem lastOutSlot_none_iff (e : Eqn) (d : Nat) :
    lastOutSlot e d = none ↔ d ∉ e.outs.map Var.id := by
  rw [lastOutSlot_eq]
  exact lastIdxOf_none_iff d e.outs

theorem lastOutSlot_get (e : Eqn) (d : Nat)
    (hnd : (e.outs.map Var.id).Nodup) (m : Nat) :
    lastOutSlot e d = some m ↔ (e.outs.get? m).map Var.id = some d := by
  rw [lastOutSlot_eq]
  exact lastIdxOf_get d e.outs hnd m

theorem transposeStep_le (st : TransposeState) (n i : Nat) (e : Eqn)
    (d : Nat) :
    (transposeStep st ((n, i), e)).le d
      = match lastOutSlot e d with
        | some m => some (n, i, m)
        | none => st.le d := by
  rw [lastOutSlot_eq]
  have h := enumFold_fnupd e.outs 0 n i st.le d
  simp only [Nat.zero_add] at h
  exact h

theorem depsFold_other (l : List Var) (k n i : Nat)
    (le : Nat → Option Slot) (td0 : Slot → Option Slot) (key : Slot)
    (hkey : ∀ j, key = (n, i, j) → ¬(k ≤ j ∧ j < k + l.length)) :
    ((List.enumFrom k l).foldl
        (fun td jd =>
          match le jd.2.id with
          | some pkm =>
            if pkm.1 < n ∨ pkm.2.1 < i then
              fun key' => if key' = (n, i, jd.1) then some pkm else td key'
            else td
          | none => td)
        td0) key = td0 key := by
  induction l generalizing k td0 with
  | nil => rfl
  | cons x t ih =>
    have hcons : List.enumFrom k (x :: t) = (k, x) :: List.enumFrom (k + 1) t := rfl
    rw [hcons]
    simp only [List.foldl_cons]
    rw [ih]
    · rcases le x.id with _ | pkm
      · rfl
      · simp only
        by_cases hc : pkm.1 < n ∨ pkm.2.1 < i
        · rw [if_pos hc]
          rw [if_neg]
          intro hk
          exact hkey k hk ⟨Nat.le_refl k, by simp⟩
        · rw [if_neg hc]
    · intro j hj
      intro hrange
      exact hkey j hj ⟨by omega, by simp; omega⟩

theorem depsFold_at (l : List Var) (k n i : Nat) (le : Nat → Option Slot)
    (td0 : Slot → Option Slot) (j : Nat) (dep : Var)
    (hj : l.get? j = some dep) :
    ((List.enumFrom k l).foldl
        (fun td jd =>
          match le jd.2.id with
          | some pkm =>
            if pkm.1 < n ∨ pkm.2.1 < i then
              fun key' => if key' = (n, i, jd.1) then some pkm else td key'
            else td
          | none => td)
        td0) (n, i, k + j)
      = match le dep.id with
        | some pkm =>
          if pkm.1 < n ∨ pkm.2.1 < i then some pkm else td0 (n, i, k + j)
        | none => td0 (n, i, k + j) := by
  induction l generalizing k td0 j with
  | nil => simp at hj
  | cons x t ih =>
    have hcons : List.enumFrom k (x :: t) = (k, x) :: List.enumFrom (k + 1) t := rfl
    rw [hcons]
    simp only [List.foldl_cons]
    rcases j with _ | j'
    · simp only [List.get?_cons_zero] at hj
      injection hj with hj
      subst hj
      rw [depsFold_other]
      · simp only [Nat.add_zero]
        rcases hx : le x.id with _ | pkm
        · rfl
        · by_cases hc : pkm.1 < n ∨ pkm.2.1 < i
          · simp [hc]
          · simp [hc]
      · intro j2 hj2 hrange
        have h3 : k + 0 = j2 := congrArg (fun s => s.2.2) hj2
        omega
    · simp only [List.get?_cons_succ] at hj
      have h1 : k + (j' + 1) = (k + 1) + j' := by omega
      rw [h1]
      rw [ih (k + 1) _ j' hj]
      rcases le dep.id with _ | pkm
      · simp only
        rcases le x.id with _ | pkm'
        · rfl
        · simp only
          by_cases hc : pkm'.1 < n ∨ pkm'.2.1 < i
          · rw [if_pos hc]
            rw [if_neg]
            intro hk
            injection hk with h2 h3
            injection h3 with h3 h4
            omega
          · rw [if_neg hc]
      · simp only
        by_cases hc : pkm.1 < n ∨ pkm.2.1 < i
        · rw [if_pos hc, if_pos hc]
        · rw [if_neg hc, if_neg hc]
          rcases le x.id with _ | pkm'
          · rfl
          · simp only
            by_cases hc' : pkm'.1 < n ∨ pkm'.2.1 < i
            · rw [if_pos hc']
              rw [if_neg]
              intro hk
              injection hk with h2 h3
              injection h3 with h3 h4
              omega
            · rw [if_neg hc']

theorem transposeStep_td_at (st : TransposeState) (n i : Nat) (e : Eqn)
    (j : Nat) (dep : Var) (hj : e.deps.get? j = some dep) :
    (transposeStep st ((n, i), e)).td (n, i, j)
      = match (transposeStep st ((n, i), e)).le dep.id with
        | some pkm =>
          if pkm.1 < n ∨ pkm.2.1 < i then some pkm else st.td (n, i, j)
        | none => st.td (n, i, j) := by
  have h := depsFold_at e.deps 0 n i (transposeStep st ((n, i), e)).le st.td
    j dep hj
  simp only [Nat.zero_add] at h
  exact h

theorem transposeStep_td_other (st : TransposeState) (n i : Nat) (e : Eqn)
    (key : Slot) (hkey : ∀ j, key = (n, i, j) → ¬ j < e.deps.length) :
    (transposeStep st ((n, i), e)).td key = st.td key := by
  have h := depsFold_other e.deps 0 n i (transposeStep st ((n, i), e)).le
    st.td key
  simp only [Nat.zero_add] at h
  exact h fun j hj hr => hkey j hj (by omega)

theorem posLt_irrefl (a : Pos) : ¬ posLt a a := by
  rcases a with ⟨a1, a2⟩
  simp only [posLt]
  omega

theorem posLt_asymm {a b : Pos} (h1 : posLt a b) (h2 : posLt b a) : False := by
  rcases a with ⟨a1, a2⟩
  rcases b with ⟨b1, b2⟩
  simp only [posLt] at h1 h2
  omega

theorem posLt_cond_iff {p k n i : Nat} (h : posLe (p, k) (n, i)) :
    (p < n ∨ k < i) ↔ posLt (p, k) (n, i) := by
  rcases h with h | h
  · simp only [posLt] at h ⊢
    omega
  · injection h with h1 h2
    subst h1
    subst h2
    simp only [posLt]
    omega

theorem posLe_last {L : List (Pos × Eqn)} {x : Pos × Eqn}
    (hlt : ∀ p ∈ L.map Prod.fst, posLt p x.1) {q l : Nat} {e' : Eqn}
    (hmem : ((q, l), e') ∈ L ++ [x]) : posLe (q, l) x.1 := by
  rcases List.mem_append.mp hmem with h | h
  · exact Or.inl (hlt _ (List.mem_map_of_mem Prod.fst h))
  · simp only [List.mem_singleton] at h
    right
    rw [← h]

theorem producesLast_append_none (L : List (Pos × Eqn)) (x : Pos × Eqn)
    (d : Nat) (s : Slot) (hx : lastOutSlot x.2 d = none) :
    ProducesLast (L ++ [x]) d s ↔ ProducesLast L d s := by
  constructor
  · rintro ⟨⟨e0, hmem, hslot⟩, hno⟩
    rcases List.mem_append.mp hmem with h | h
    · refine ⟨⟨e0, h, hslot⟩, ?_⟩
      intro q l e' hm hq
      exact hno q l e' (List.mem_append_left _ hm) hq
    · exfalso
      simp only [List.mem_singleton] at h
      rw [show e0 = x.2 from congrArg Prod.snd h] at hslot
      rw [hx] at hslot
      exact Option.noConfusion hslot
  · rintro ⟨⟨e0, hmem, hslot⟩, hno⟩
    refine ⟨⟨e0, List.mem_append_left _ hmem, hslot⟩, ?_⟩
    intro q l e' hm hq
    rcases List.mem_append.mp hm with h | h
    · exact hno q l e' h hq
    · simp only [List.mem_singleton] at h
      rw [show e' = x.2 from congrArg Prod.snd h]
      exact hx

theorem producesLast_append_some (L : List (Pos × Eqn)) (x : Pos × Eqn)
    (d m : Nat) (hlt : ∀ p ∈ L.map Prod.fst, posLt p x.1)
    (hx : lastOutSlot x.2 d = some m) (s : Slot) :
    ProducesLast (L ++ [x]) d s ↔ s = (x.1.1, x.1.2, m) := by
  constructor
  · rintro ⟨⟨e0, hmem, hslot⟩, hno⟩
    rcases List.mem_append.mp hmem with h | h
    · exfalso
      have hpos : posLt (s.1, s.2.1) x.1 :=
        hlt _ (List.mem_map_of_mem Prod.fst h)
      have := hno x.1.1 x.1.2 x.2
        (List.mem_append_right _ (by simp)) hpos
      rw [hx] at this
      exact Option.noConfusion this
    · simp only [List.mem_singleton] at h
      have hps : (s.1, s.2.1) = x.1 := congrArg Prod.fst h
      have hes : e0 = x.2 := congrArg Prod.snd h
      rw [hes, hx] at hslot
      injection hslot with hm
      rcases s with ⟨s1, s2, s3⟩
      simp only at hps hm
      rw [Prod.ext_iff] at hps
      simp only at hps
      simp [hps.1, hps.2, hm]
  · intro hs
    subst hs
    refine ⟨⟨x.2, List.mem_append_right _ (by simp), hx⟩, ?_⟩
    intro q l e' hm hq
    exfalso
    simp only at hq
    have hle := posLe_last hlt hm
    rcases hle with h | h
    · exact posLt_asymm hq h
    · rw [h] at hq
      exact posLt_irrefl _ hq

theorem edgeSpec_append_of_ne (L : List (Pos × Eqn)) (x : Pos × Eqn)
    (key pkm : Slot) (hlt : ∀ p ∈ L.map Prod.fst, posLt p x.1)
    (hne : (key.1, key.2.1) ≠ x.1) :
    EdgeSpecL (L ++ [x]) key pkm ↔ EdgeSpecL L key pkm := by
  constructor
  · rintro ⟨e0, dep, hcmem, hget, hpl, ⟨eP, hpmem, hpslot⟩, hno⟩
    have hcin : ((key.1, key.2.1), e0) ∈ L := by
      rcases List.mem_append.mp hcmem with h | h
      · exact h
      · exfalso
        simp only [List.mem_singleton] at h
        exact hne (congrArg Prod.fst h)
    have hclt : posLt (key.1, key.2.1) x.1 :=
      hlt _ (List.mem_map_of_mem Prod.fst hcin)
    have hpin : ((pkm.1, pkm.2.1), eP) ∈ L := by
      rcases List.mem_append.mp hpmem with h | h
      · exact h
      · exfalso
        simp only [List.mem_singleton] at h
        have : (pkm.1, pkm.2.1) = x.1 := congrArg Prod.fst h
        rw [this] at hpl
        exact posLt_asymm hpl hclt
    refine ⟨e0, dep, hcin, hget, hpl, ⟨eP, hpin, hpslot⟩, ?_⟩
    intro q l e' hm hq hql
    exact hno q l e' (List.mem_append_left _ hm) hq hql
  · rintro ⟨e0, dep, hcmem, hget, hpl, ⟨eP, hpmem, hpslot⟩, hno⟩
    have hclt : posLt (key.1, key.2.1) x.1 :=
      hlt _ (List.mem_map_of_mem Prod.fst hcmem)
    refine ⟨e0, dep, List.mem_append_left _ hcmem, hget, hpl,
      ⟨eP, List.mem_append_left _ hpmem, hpslot⟩, ?_⟩
    intro q l e' hm hq hql
    rcases List.mem_append.mp hm with h | h
    · exact hno q l e' h hq hql
    · exfalso
      simp only [List.mem_singleton] at h
      have hqx : (q, l) = x.1 := congrArg Prod.fst h
      rw [hqx] at hql
      rcases hql with h2 | h2
      · exact posLt_asymm h2 hclt
      · rw [h2] at hclt
        exact posLt_irrefl _ hclt

theorem transposeStep_le_none (st : TransposeState) (n i : Nat) (e : Eqn)
    (d : Nat) (h : lastOutSlot e d = none) :
    (transposeStep st ((n, i), e)).le d = st.le d := by
  rw [transposeStep_le, h]

theorem transposeStep_le_some (st : TransposeState) (n i : Nat) (e : Eqn)
    (d m : Nat) (h : lastOutSlot e d = some m) :
    (transposeStep st ((n, i), e)).le d = some (n, i, m) := by
  rw [transposeStep_le, h]

theorem transposeStep_td_none (st : TransposeState) (n i : Nat) (e : Eqn)
    (j : Nat) (dep : Var) (hj : e.deps.get? j = some dep)
    (hle : (transposeStep st ((n, i), e)).le dep.id = none) :
    (transposeStep st ((n, i), e)).td (n, i, j) = st.td (n, i, j) := by
  rw [transposeStep_td_at st n i e j dep hj, hle]

theorem transposeStep_td_some_cond (st : TransposeState) (n i : Nat)
    (e : Eqn) (j : Nat) (dep : Var) (pkm : Slot)
    (hj : e.deps.get? j = some dep)
    (hle : (transposeStep st ((n, i), e)).le dep.id = some pkm)
    (hc : pkm.1 < n ∨ pkm.2.1 < i) :
    (transposeStep st ((n, i), e)).td (n, i, j) = some pkm := by
  rw [transposeStep_td_at st n i e j dep hj, hle]
  show (if pkm.1 < n ∨ pkm.2.1 < i then some pkm else st.td (n, i, j))
    = some pkm
  rw [if_pos hc]

theorem transposeStep_td_some_nocond (st : TransposeState) (n i : Nat)
    (e : Eqn) (j : Nat) (dep : Var) (pkm : Slot)
    (hj : e.deps.get? j = some dep)
    (hle : (transposeStep st ((n, i), e)).le dep.id = some pkm)
    (hc : ¬(pkm.1 < n ∨ pkm.2.1 < i)) :
    (transposeStep st ((n, i), e)).td (n, i, j) = st.td (n, i, j) := by
  rw [transposeStep_td_at st n i e j dep hj, hle]
  show (if pkm.1 < n ∨ pkm.2.1 < i then some pkm else st.td (n, i, j))
    = st.td (n, i, j)
  rw [if_neg hc]

theorem edgeSpec_consumer_eq (L : List (Pos × Eqn)) (x : Pos × Eqn)
    (hlt : ∀ p ∈ L.map Prod.fst, posLt p x.1) (kj : Nat) (pkm : Slot)
    (h : EdgeSpecL (L ++ [x]) (x.1.1, x.1.2, kj) pkm) :
    ∃ dep, x.2.deps.get? kj = some dep ∧
      posLt (pkm.1, pkm.2.1) x.1 ∧
      ProducesLast (L ++ [x]) dep.id pkm := by
  obtain ⟨e0, dep, hcmem, hget, hpl, hprod, hno⟩ := h
  have hkeyx : ((x.1.1, x.1.2) : Pos) = x.1 := rfl
  rw [hkeyx] at hcmem hpl
  have he0 : e0 = x.2 := by
    rcases List.mem_append.mp hcmem with hmem | hmem
    · exfalso
      have hmemf := List.mem_map_of_mem Prod.fst hmem
      exact posLt_irrefl _ (hlt _ hmemf)
    · simp only [List.mem_singleton] at hmem
      exact congrArg Prod.snd hmem
  subst he0
  refine ⟨dep, hget, hpl, hprod, ?_⟩
  intro q l e' hm hq
  exact hno q l e' hm hq (posLe_last hlt hm)

theorem edgeSpec_of_producesLast (L : List (Pos × Eqn)) (x : Pos × Eqn)
    (kj : Nat) (dep : Var) (pkm : Slot)
    (hget : x.2.deps.get? kj = some dep)
    (hpl : posLt (pkm.1, pkm.2.1) x.1)
    (hprod : ProducesLast (L ++ [x]) dep.id pkm) :
    EdgeSpecL (L ++ [x]) (x.1.1, x.1.2, kj) pkm := by
  refine ⟨x.2, dep, ?_, hget, hpl, hprod.1, ?_⟩
  · have hkeyx : ((x.1.1, x.1.2) : Pos) = x.1 := rfl
    rw [hkeyx]
    exact List.mem_append_right _ (by simp)
  · intro q l e' hm hq _
    exact hprod.2 q l e' hm hq

theorem tChar (L : List (Pos × Eqn))
    (hPW : (L.map Prod.fst).Pairwise posLt) :
    (∀ d s, ((L.foldl transposeStep tInit).le d = some s
        ↔ ProducesLast L d s)) ∧
    (∀ key pkm, ((L.foldl transposeStep tInit).td key = some pkm
        ↔ EdgeSpecL L key pkm)) := by
  induction L using List.reverseRecOn with
  | nil =>
    constructor
    · intro d s
      constructor
      · intro h
        exact absurd h (by simp [tInit])
      · rintro ⟨⟨e0, hmem, -⟩, -⟩
        simp at hmem
    · intro key pkm
      constructor
      · intro h
        exact absurd h (by simp [tInit])
      · rintro ⟨e0, dep, hmem, -⟩
        simp at hmem
  | append_singleton L x ih =>
    have hmap : (L ++ [x]).map Prod.fst = L.map Prod.fst ++ [x.1] := by simp
    rw [hmap, List.pairwise_append] at hPW
    obtain ⟨hL, -, hcross⟩ := hPW
    have hlt : ∀ p ∈ L.map Prod.fst, posLt p x.1 := by
      intro p hp
      exact hcross p hp x.1 (by simp)
    obtain ⟨ihLE, ihTD⟩ := ih hL
    have hfold : (L ++ [x]).foldl transposeStep tInit
        = transposeStep (L.foldl transposeStep tInit) x := by
      simp [List.foldl_append]
    have hLE' : ∀ d s,
        (((L ++ [x]).foldl transposeStep tInit).le d = some s
          ↔ ProducesLast (L ++ [x]) d s) := by
      intro d s
      rw [hfold]
      rcases hlast : lastOutSlot x.2 d with _ | m
      · rw [show transposeStep (L.foldl transposeStep tInit) x
            = transposeStep (L.foldl transposeStep tInit) ((x.1.1, x.1.2), x.2)
            from rfl]
        rw [transposeStep_le_none _ _ _ _ _ hlast]
        rw [ihLE d s]
        exact (producesLast_append_none L x d s hlast).symm
      · rw [show transposeStep (L.foldl transposeStep tInit) x
            = transposeStep (L.foldl transposeStep tInit) ((x.1.1, x.1.2), x.2)
            from rfl]
        rw [transposeStep_le_some _ _ _ _ _ _ hlast]
        rw [producesLast_append_some L x d m hlt hlast s]
        constructor
        · intro h
          injection h with h
          exact h.symm
        · intro h
          rw [h]
    have hTD' : ∀ key pkm,
        (((L ++ [x]).foldl transposeStep tInit).td key = some pkm
          ↔ EdgeSpecL (L ++ [x]) key pkm) := by
      intro key pkm
      obtain ⟨kq, kl, kj⟩ := key
      rw [hfold]
      by_cases hpos : ((kq, kl) : Pos) = x.1
      · have hxeq : x = ((kq, kl), x.2) := by
          rw [Prod.ext_iff]
          exact ⟨hpos.symm, rfl⟩
        rcases hdep : x.2.deps.get? kj with _ | dep
        · have hother : (transposeStep (L.foldl transposeStep tInit) x).td
              (kq, kl, kj) = (L.foldl transposeStep tInit).td (kq, kl, kj) := by
            rw [hxeq]
            apply transposeStep_td_other
            intro j hj hlen
            have hkj : kj = j := congrArg (fun s => s.2.2) hj
            subst hkj
            rw [List.get?_eq_none] at hdep
            omega
          rw [hother]
          constructor
          · intro h
            exfalso
            obtain ⟨e0, dep0, hcmem, -⟩ := (ihTD _ _).mp h
            have := hlt _ (List.mem_map_of_mem Prod.fst hcmem)
            rw [hpos] at this
            exact posLt_irrefl _ this
          · intro hE
            exfalso
            rw [show ((kq, kl, kj) : Slot) = (x.1.1, x.1.2, kj) from by
              rw [← hpos]] at hE
            obtain ⟨dep2, hget2, -, -⟩ := edgeSpec_consumer_eq L x hlt kj pkm hE
            rw [hdep] at hget2
            exact Option.noConfusion hget2
        · have hSnone : (L.foldl transposeStep tInit).td (kq, kl, kj) = none := by
            rcases hS : (L.foldl transposeStep tInit).td (kq, kl, kj) with _ | v
            · rfl
            · exfalso
              obtain ⟨e0, dep0, hcmem, -⟩ := (ihTD _ _).mp hS
              have := hlt _ (List.mem_map_of_mem Prod.fst hcmem)
              rw [hpos] at this
              exact posLt_irrefl _ this
          rcases hle : (transposeStep (L.foldl transposeStep tInit) x).le dep.id
            with _ | pkm'
          · have hmain : (transposeStep (L.foldl transposeStep tInit) x).td
                (kq, kl, kj) = none := by
              rw [hxeq]
              rw [hxeq] at hle
              rw [transposeStep_td_none _ _ _ _ _ _ hdep hle]
              exact hSnone
            rw [hmain]
            constructor
            · intro h
              exact Option.noConfusion h
            · intro hE
              exfalso
              rw [show ((kq, kl, kj) : Slot) = (x.1.1, x.1.2, kj) from by
                rw [← hpos]] at hE
              obtain ⟨dep2, hget2, -, hprod2⟩ :=
                edgeSpec_consumer_eq L x hlt kj pkm hE
              rw [hdep] at hget2
              injection hget2 with hget2
              subst hget2
              have := (hLE' dep.id pkm).mpr hprod2
              rw [hfold, hle] at this
              exact Option.noConfusion this
          · have hPLmem : ProducesLast (L ++ [x]) dep.id pkm' := by
              have := (hLE' dep.id pkm').mp (by rw [hfold]; exact hle)
              exact this
            have hple : posLe (pkm'.1, pkm'.2.1) x.1 := by
              obtain ⟨eP, hpmem, -⟩ := hPLmem.1
              exact posLe_last hlt hpmem
            by_cases hc : pkm'.1 < kq ∨ pkm'.2.1 < kl
            · have hmain : (transposeStep (L.foldl transposeStep tInit) x).td
                  (kq, kl, kj) = some pkm' := by
                rw [hxeq]
                rw [hxeq] at hle
                exact transposeStep_td_some_cond _ _ _ _ _ _ _ hdep hle hc
              rw [hmain]
              have hplt : posLt (pkm'.1, pkm'.2.1) x.1 := by
                rw [← hpos]
                rw [← hpos] at hple
                exact (posLt_cond_iff hple).mp hc
              constructor
              · intro h
                injection h with h
                subst h
                rw [show ((kq, kl, kj) : Slot) = (x.1.1, x.1.2, kj) from by
                  rw [← hpos]]
                exact edgeSpec_of_producesLast L x kj dep pkm' hdep hplt hPLmem
              · intro hE
                rw [show ((kq, kl, kj) : Slot) = (x.1.1, x.1.2, kj) from by
                  rw [← hpos]] at hE
                obtain ⟨dep2, hget2, -, hprod2⟩ :=
                  edgeSpec_consumer_eq L x hlt kj pkm hE
                rw [hdep] at hget2
                injection hget2 with hget2
                subst hget2
                have h2 := (hLE' dep.id pkm).mpr hprod2
                rw [hfold, hle] at h2
                exact h2
            · have hmain : (transposeStep (L.foldl transposeStep tInit) x).td
                  (kq, kl, kj) = none := by
                rw [hxeq]
                rw [hxeq] at hle
                rw [transposeStep_td_some_nocond _ _ _ _ _ _ _ hdep hle hc]
                exact hSnone
              rw [hmain]
              constructor
              · intro h
                exact Option.noConfusion h
              · intro hE
                exfalso
                rw [show ((kq, kl, kj) : Slot) = (x.1.1, x.1.2, kj) from by
                  rw [← hpos]] at hE
                obtain ⟨dep2, hget2, hplt2, hprod2⟩ :=
                  edgeSpec_consumer_eq L x hlt kj pkm hE
                rw [hdep] at hget2
                injection hget2 with hget2
                subst hget2
                have h2 := (hLE' dep.id pkm).mpr hprod2
                rw [hfold, hle] at h2
                injection h2 with h2
                apply hc
                rw [h2]
                rw [← hpos] at hplt2
                exact (posLt_cond_iff (Or.inl hplt2)).mpr hplt2
            -- end by_cases hc
      · have hother : (transposeStep (L.foldl transposeStep tInit) x).td
            (kq, kl, kj) = (L.foldl transposeStep tInit).td (kq, kl, kj) := by
          rw [show x = ((x.1.1, x.1.2), x.2) from rfl]
          apply transposeStep_td_other
          intro j hj hlen
          apply hpos
          have := congrArg (fun s => ((s.1, s.2.1) : Pos)) hj
          simpa using this
        rw [hother, ihTD]
        exact (edgeSpec_append_of_ne L x (kq, kl, kj) pkm hlt hpos).symm
    exact ⟨hLE', hTD'⟩

theorem pairwise_flatMap {α β : Type} {R : β → β → Prop} {l : List α}
    {f : α → List β} (h1 : ∀ a ∈ l, (f a).Pairwise R)
    (h2 : l.Pairwise (fun a b => ∀ x ∈ f a, ∀ y ∈ f b, R x y)) :
    (l.flatMap f).Pairwise R := by
  induction l with
  | nil => simp
  | cons a t ih =>
    simp only [List.flatMap_cons]
    rw [List.pairwise_append]
    rcases h2 with - | ⟨h2a, h2t⟩
    refine ⟨h1 a (by simp), ih (fun b hb => h1 b (by simp [hb])) h2t, ?_⟩
    · intro x hx y hy
      rw [List.mem_flatMap] at hy
      obtain ⟨b, hb, hyb⟩ := hy
      exact h2a b hb x hx y hyb

theorem mem_tapeList (blocksN : List Nat) (blocks : Nat → List Eqn)
    (q l : Nat) (e : Eqn) :
    ((q, l), e) ∈ tapeList blocksN blocks
      ↔ eqnAt blocksN blocks q l = some e := by
  unfold tapeList eqnAt
  rw [List.mem_flatMap]
  constructor
  · rintro ⟨n, hn, hmem⟩
    rw [List.mem_map] at hmem
    obtain ⟨ie, hie, heq⟩ := hmem
    have hq : n = q := congrArg (fun p => p.1.1) heq
    have hl : ie.1 = l := congrArg (fun p => p.1.2) heq
    have he : ie.2 = e := congrArg Prod.snd heq
    subst hq
    rw [if_pos hn]
    rw [← hl, ← he]
    exact (List.mk_mem_enum_iff_get?).mp (by rwa [← Prod.mk.eta (p := ie)] at hie)
  · intro h
    by_cases hn : q ∈ blocksN
    · rw [if_pos hn] at h
      refine ⟨q, hn, ?_⟩
      rw [List.mem_map]
      exact ⟨(l, e), (List.mk_mem_enum_iff_get?).mpr h, rfl⟩
    · rw [if_neg hn] at h
      exact Option.noConfusion h

theorem tapeList_pairwise (blocksN : List Nat) (blocks : Nat → List Eqn)
    (hs : blocksN.Pairwise (· < ·)) :
    ((tapeList blocksN blocks).map Prod.fst).Pairwise posLt := by
  unfold tapeList
  rw [List.map_flatMap]
  apply pairwise_flatMap
  · intro n _
    rw [List.map_map]
    rw [List.pairwise_map]
    have h1 : ((blocks n).enum.map Prod.fst).Pairwise (· < ·) := by
      rw [List.enum_map_fst]
      exact List.pairwise_lt_range _
    rw [List.pairwise_map] at h1
    apply h1.imp
    intro a b hab
    exact Or.inr ⟨rfl, hab⟩
  · apply hs.imp
    intro a b hab
    intro x hx y hy
    rw [List.map_map, List.mem_map] at hx hy
    obtain ⟨ia, -, hia⟩ := hx
    obtain ⟨ib, -, hib⟩ := hy
    subst hia
    subst hib
    exact Or.inl hab

theorem eqnAt_mem {blocksN : List Nat} {blocks : Nat → List Eqn}
    {n i : Nat} {e : Eqn} (h : eqnAt blocksN blocks n i = some e) :
    n ∈ blocksN ∧ e ∈ blocks n := by
  unfold eqnAt at h
  by_cases hn : n ∈ blocksN
  · rw [if_pos hn] at h
    exact ⟨hn, List.get?_mem h⟩
  · rw [if_neg hn] at h
    exact Option.noConfusion h

/-- Claim C1: on every tape (a `Sequence` gives `blocksN = range`, a
sorted `Mapping` gives its strictly sorted keys) whose equations have
distinct output ids (the equation contract), the reverse-edge pass
records a transpose edge `(n, i, j) -> (p, k, m)` exactly when the
variable consumed at dependency slot `j` of equation `(n, i)` was
produced as output `m` of equation `(p, k)`, strictly earlier in tape
order, and no equation between `(p, k)` and `(n, i)` — inclusive of
`(n, i)` itself — produces that variable id: the edge always points to
the most recent prior producer. -/
theorem claim_C1 (Js M : List Var) (blocksN : List Nat)
    (blocks : Nat → List Eqn) (pf pa : Bool)
    (hs : blocksN.Pairwise (· < ·))
    (hnd : ∀ n ∈ blocksN, ∀ e ∈ blocks n, (e.outs.map Var.id).Nodup)
    (n i j p k m : Nat) :
    (mkGraph Js M blocksN blocks pf pa).transposeDeps (n, i, j)
        = some (p, k, m)
      ↔ IsTransposeEdge blocksN blocks n i j p k m := by
  have htd : (mkGraph Js M blocksN blocks pf pa).transposeDeps
      = buildTransposeDeps blocksN blocks := rfl
  rw [htd]
  unfold buildTransposeDeps
  rw [(tChar (tapeList blocksN blocks) (tapeList_pairwise _ _ hs)).2]
  constructor
  · rintro ⟨e, dep, hcmem, hget, hpl, ⟨eP, hpmem, hslot⟩, hno⟩
    rw [mem_tapeList] at hcmem hpmem
    have hndP : (eP.outs.map Var.id).Nodup :=
      hnd _ (eqnAt_mem hpmem).1 _ (eqnAt_mem hpmem).2
    refine ⟨e, dep, eP, hcmem, hget, hpmem, hpl,
      (lastOutSlot_get eP dep.id hndP m).mp hslot, ?_⟩
    intro q l e' he' hq hq2
    rw [← mem_tapeList] at he'
    exact (lastOutSlot_none_iff e' dep.id).mp (hno q l e' he' hq hq2)
  · rintro ⟨e, dep, eP, hc, hget, hp, hpl, hout, hno⟩
    have hndP : (eP.outs.map Var.id).Nodup :=
      hnd _ (eqnAt_mem hp).1 _ (eqnAt_mem hp).2
    rw [← mem_tapeList] at hc hp
    refine ⟨e, dep, hc, hget, hpl,
      ⟨eP, hp, (lastOutSlot_get eP dep.id hndP m).mpr hout⟩, ?_⟩
    intro q l e' hm hq hq2
    rw [mem_tapeList] at hm
    exact (lastOutSlot_none_iff e' dep.id).mpr (hno q l e' hm hq hq2)

/-- Claim C1, witness: a one-block tape with two equations, the second
consuming the first one's output at dependency slot 1; the theorem
applies and the edge `(0, 1, 1) -> (0, 0, 0)` is present. -/
theorem claim_C1_witness :
    ([0] : List Nat).Pairwise (· < ·) ∧
    (∀ n ∈ ([0] : List Nat),
      ∀ e ∈ (fun _ : Nat =>
          [(⟨[mkV 1], [mkV 1], [], [], false, false, 0, none, []⟩ : Eqn),
           ⟨[mkV 2], [mkV 2, mkV 1], [], [], false, false, 1, none, []⟩]) n,
        (e.outs.map Var.id).Nodup) ∧
    ((mkGraph [] [] [0]
        (fun _ : Nat =>
          [(⟨[mkV 1], [mkV 1], [], [], false, false, 0, none, []⟩ : Eqn),
           ⟨[mkV 2], [mkV 2, mkV 1], [], [], false, false, 1, none, []⟩])
        false false).transposeDeps (0, 1, 1) = some (0, 0, 0)
      ↔ IsTransposeEdge [0]
        (fun _ : Nat =>
          [(⟨[mkV 1], [mkV 1], [], [], false, false, 0, none, []⟩ : Eqn),
           ⟨[mkV 2], [mkV 2, mkV 1], [], [], false, false, 1, none, []⟩])
        0 1 1 0 0 0) := by
  refine ⟨by decide, by decide, ?_⟩
  exact claim_C1 [] [] [0] _ false false (by decide) (by decide) 0 1 1 0 0 0

theorem buildTransposeDeps_targets (blocksN : List Nat)
    (blocks : Nat → List Eqn) (hs : blocksN.Pairwise (· < ·)) :
    EdgeTargets blocksN blocks (buildTransposeDeps blocksN blocks) := by
  intro q l j pp kk mm h
  unfold buildTransposeDeps at h
  have h2 := ((tChar _ (tapeList_pairwise _ _ hs)).2 _ _).mp h
  obtain ⟨e, dep, -, -, -, ⟨eP, hpmem, hslot⟩, -⟩ := h2
  rw [mem_tapeList] at hpmem
  refine ⟨eP, hpmem, ?_⟩
  intro hnil
  rw [lastOutSlot_eq, hnil] at hslot
  exact Option.noConfusion hslot

theorem icsOutStep_targets (blocksN : List Nat) (blocks : Nat → List Eqn)
    (p k : Nat) (e : Eqn) (hpe : eqnAt blocksN blocks p k = some e)
    (hne : e.outs ≠ []) (st : IcsState)
    (hst : EdgeTargets blocksN blocks st.td) (mx : Nat × Var) :
    EdgeTargets blocksN blocks (icsOutStep p k e st mx).td := by
  intro q l j pp kk mm h
  unfold icsOutStep at h
  simp only at h
  by_cases hic : mx.2.id ∈ e.adjIcDeps.map Var.id
  · rw [if_pos hic] at h
    rcases hle : st.le mx.2.id with _ | ⟨t', nij⟩
    · rw [hle] at h
      exact hst q l j pp kk mm h
    · rw [hle] at h
      have h2 : (if relSpaceType mx.2.spaceType (e.adjXTypes.getD mx.1 .primal)
            = t'
          then (fun key => if key = nij then some (p, k, mx.1) else st.td key)
          else st.td) (q, l, j) = some (pp, kk, mm) := h
      by_cases ht : relSpaceType mx.2.spaceType (e.adjXTypes.getD mx.1 .primal)
          = t'
      · rw [if_pos ht] at h2
        have h3 : (if ((q, l, j) : Slot) = nij then some (p, k, mx.1)
            else st.td (q, l, j)) = some (pp, kk, mm) := h2
        by_cases hk : ((q, l, j) : Slot) = nij
        · rw [if_pos hk] at h3
          injection h3 with h3
          have hpp : pp = p := (congrArg (fun s => s.1) h3).symm
          have hkk : kk = k := (congrArg (fun s => s.2.1) h3).symm
          rw [hpp, hkk]
          exact ⟨e, hpe, hne⟩
        · rw [if_neg hk] at h3
          exact hst q l j pp kk mm h3
      · rw [if_neg ht] at h2
        exact hst q l j pp kk mm h2
  · rw [if_neg hic] at h
    exact hst q l j pp kk mm h

theorem icsStep_targets (blocksN : List Nat) (blocks : Nat → List Eqn)
    (st : IcsState) (p k : Nat) (e : Eqn)
    (hpe : eqnAt blocksN blocks p k = some e)
    (hst : EdgeTargets blocksN blocks st.td) :
    EdgeTargets blocksN blocks (icsStep st ((p, k), e)).td := by
  unfold icsStep
  rcases houts : e.outs with _ | ⟨y, ys⟩
  · simp only [houts, List.enum_nil, List.foldl_nil]
    exact hst
  · have hne : e.outs ≠ [] := by rw [houts]; simp
    have hgen : ∀ (L : List (Nat × Var)) (st : IcsState),
        EdgeTargets blocksN blocks st.td →
        EdgeTargets blocksN blocks
          (L.foldl (icsOutStep p k e) st).td := by
      intro L
      induction L with
      | nil => intro st hst; exact hst
      | cons mx t ih =>
        intro st hst
        simp only [List.foldl_cons]
        exact ih _ (icsOutStep_targets blocksN blocks p k e hpe hne st hst mx)
    exact hgen _ st hst

theorem buildIcsEdges_targets (blocksN : List Nat) (blocks : Nat → List Eqn)
    (td : Slot → Option Slot) (h0 : EdgeTargets blocksN blocks td) :
    EdgeTargets blocksN blocks (buildIcsEdges blocksN blocks td) := by
  unfold buildIcsEdges
  apply List.foldlRecOn (motive := fun st : IcsState =>
    EdgeTargets blocksN blocks st.td) _ _ _ h0
  intro st hst pe hpe
  rw [List.mem_reverse, mem_tapeList blocksN blocks pe.1.1 pe.1.2 pe.2] at hpe
  have := icsStep_targets blocksN blocks st pe.1.1 pe.1.2 pe.2 hpe hst
  rwa [show ((pe.1.1, pe.1.2), pe.2) = pe from rfl] at this

theorem afStep_sound (blocksN : List Nat) (blocks : Nat → List Eqn)
    (M : List Var) (tdIcs : Slot → Option Slot)
    (htd : EdgeTargets blocksN blocks tdIcs)
    (hinstr : ∀ n ∈ blocksN, ∀ e ∈ blocks n,
      e.instruction = true → e.outs = [])
    (st : List Nat × (Nat → Nat → Bool))
    (hst : AfInvariant blocksN blocks tdIcs (M.map Var.id) st)
    (n i : Nat) (e : Eqn) (hpe : eqnAt blocksN blocks n i = some e) :
    AfInvariant blocksN blocks tdIcs (M.map Var.id)
      (afStep tdIcs st ((n, i), e)) := by
  obtain ⟨hstM, hstA⟩ := hst
  unfold afStep
  simp only
  set af1 := if e.instruction then setPos st.2 (n, i) true else st.2 with haf1
  have hA1 : ∀ q l, af1 q l = true →
      ∃ e', eqnAt blocksN blocks q l = some e' ∧
        (e'.instruction = true ∨
          FwdReachable blocksN blocks tdIcs (M.map Var.id) q l) := by
    intro q l h
    rw [haf1] at h
    by_cases hi : e.instruction = true
    · rw [if_pos hi] at h
      unfold setPos at h
      by_cases hq : q = n ∧ l = i
      · exact ⟨e, by rw [hq.1, hq.2]; exact hpe, Or.inl hi⟩
      · rw [if_neg hq] at h
        exact hstA q l h
    · rw [if_neg hi] at h
      exact hstA q l h
  set hitc := st.1 ≠ [] ∧ (e.outs.map Var.id).any (· ∈ st.1) with hhit
  have hA2 : ∀ q l,
      (if hitc then setPos af1 (n, i) true else af1) q l = true →
      ∃ e', eqnAt blocksN blocks q l = some e' ∧
        (e'.instruction = true ∨
          FwdReachable blocksN blocks tdIcs (M.map Var.id) q l) := by
    intro q l h
    by_cases hh : hitc
    · rw [if_pos hh] at h
      unfold setPos at h
      by_cases hq : q = n ∧ l = i
      · refine ⟨e, by rw [hq.1, hq.2]; exact hpe, Or.inr ?_⟩
        rw [hq.1, hq.2]
        obtain ⟨-, hany⟩ := hh
        rw [List.any_eq_true] at hany
        obtain ⟨xid, hxid, hxin⟩ := hany
        rw [List.mem_map] at hxid
        obtain ⟨x, hx, hxeq⟩ := hxid
        refine FwdReachable.seed n i e hpe ⟨x, hx, ?_⟩
        rw [hxeq]
        exact hstM _ (by simpa using hxin)
      · rw [if_neg hq] at h
        exact hA1 q l h
    · rw [if_neg hh] at h
      exact hA1 q l h
  constructor
  · intro d hd
    simp only at hd
    by_cases hh : hitc
    · rw [if_pos hh] at hd
      exact hstM d (List.mem_of_mem_filter hd)
    · rw [if_neg hh] at hd
      exact hstM d hd
  · intro q l h
    simp only at h
    set af2 := if hitc then setPos af1 (n, i) true else af1 with haf2
    by_cases hcur : af2 n i = true
    · rw [if_pos hcur] at h
      exact hA2 q l h
    · rw [if_neg hcur] at h
      by_cases hany : (List.range e.deps.length).any (fun j =>
          match tdIcs (n, i, j) with
          | some pkm => af2 pkm.1 pkm.2.1
          | none => false) = true
      · rw [if_pos hany] at h
        unfold setPos at h
        by_cases hq : q = n ∧ l = i
        · refine ⟨e, by rw [hq.1, hq.2]; exact hpe, Or.inr ?_⟩
          rw [hq.1, hq.2]
          rw [List.any_eq_true] at hany
          obtain ⟨j, hj, hjp⟩ := hany
          rw [List.mem_range] at hj
          rcases hedge : tdIcs (n, i, j) with _ | pkm
          · rw [hedge] at hjp
            exact absurd hjp (by simp)
          · rw [hedge] at hjp
            have hact := hA2 pkm.1 pkm.2.1 hjp
            obtain ⟨eP0, hP0, hP0d⟩ := hact
            rcases hP0d with hP0i | hP0r
            · exfalso
              obtain ⟨eP1, hP1, hP1ne⟩ :=
                htd n i j pkm.1 pkm.2.1 pkm.2.2 (by rw [hedge])
              rw [hP0] at hP1
              injection hP1 with hP1
              apply hP1ne
              rw [← hP1]
              exact hinstr _ (eqnAt_mem hP0).1 _ (eqnAt_mem hP0).2 hP0i
            · exact FwdReachable.step n i e j pkm.1 pkm.2.1 pkm.2.2 hpe hj
                hedge hP0r
        · rw [if_neg hq] at h
          exact hA2 q l h
      · rw [if_neg (by simpa using hany)] at h
        exact hA2 q l h

theorem pruneForward_sound (blocksN : List Nat) (blocks : Nat → List Eqn)
    (M : List Var) (tdIcs : Slot → Option Slot)
    (htd : EdgeTargets blocksN blocks tdIcs)
    (hinstr : ∀ n ∈ blocksN, ∀ e ∈ blocks n,
      e.instruction = true → e.outs = []) :
    ∀ q l, pruneForwardPass blocksN blocks M tdIcs q l = true →
      ∃ e, eqnAt blocksN blocks q l = some e ∧
        (e.instruction = true ∨
          FwdReachable blocksN blocks tdIcs (M.map Var.id) q l) := by
  have hinv : AfInvariant blocksN blocks tdIcs (M.map Var.id)
      ((tapeList blocksN blocks).foldl (afStep tdIcs)
        (M.map Var.id, fun _ _ => false)) := by
    apply List.foldlRecOn (motive :=
      AfInvariant blocksN blocks tdIcs (M.map Var.id))
    · exact ⟨fun d hd => hd, fun q l h => absurd h (by simp)⟩
    · intro st hst pe hpe
      rw [mem_tapeList blocksN blocks pe.1.1 pe.1.2 pe.2] at hpe
      have := afStep_sound blocksN blocks M tdIcs htd hinstr st hst
        pe.1.1 pe.1.2 pe.2 hpe
      rwa [show ((pe.1.1, pe.1.2), pe.2) = pe from rfl] at this
  intro q l h
  exact hinv.2 q l h

theorem computeActiveJ_le (jId : Nat) (td : Slot → Option Slot)
    (blocksN : List Nat) (blocks : Nat → List Eqn)
    (af : Nat → Nat → Bool) (q l : Nat)
    (h : computeActiveJ jId td blocksN blocks af q l = true) :
    af q l = true := by
  unfold computeActiveJ at h
  have hinv : ∀ q l, (((tapeList blocksN blocks).reverse).foldl
      (ajStep jId td) ⟨true, fun _ _ => false, af⟩).act q l = true →
      af q l = true := by
    apply List.foldlRecOn (motive := fun st : AdjPruneState =>
      ∀ q l, st.act q l = true → af q l = true)
    · intro q l h
      exact h
    · intro st hst pe _ q l h
      unfold ajStep at h
      simp only at h
      by_cases haa : (if st.activeJ ∧ pe.2.outs.any (fun x => x.id = jId)
          then setPos st.aa (pe.1.1, pe.1.2) true else st.aa) pe.1.1 pe.1.2
          = true
      · rw [if_pos haa] at h
        simp only at h
        exact hst q l h
      · rw [if_neg haa] at h
        by_cases hi : pe.2.instruction = true
        · rw [if_pos hi] at h
          exact hst q l h
        · rw [if_neg hi] at h
          simp only at h
          unfold setPos at h
          by_cases hq : q = pe.1.1 ∧ l = pe.1.2
          · rw [if_pos hq] at h
            exact absurd h (by simp)
          · rw [if_neg hq] at h
            exact hst q l h
  exact hinv q l h

theorem mkGraph_active_le_af (Js M : List Var) (blocksN : List Nat)
    (blocks : Nat → List Eqn) (pf pa : Bool) (jI n i : Nat)
    (h : (mkGraph Js M blocksN blocks pf pa).active jI n i = true) :
    computeActiveForward pf blocksN blocks M n i = true := by
  have hact : (mkGraph Js M blocksN blocks pf pa).active jI n i
      = (match Js.get? jI with
        | none => false
        | some j =>
          if pa then computeActiveJ j.id (buildTransposeDeps blocksN blocks)
            blocksN blocks (computeActiveForward pf blocksN blocks M) n i
          else computeActiveForward pf blocksN blocks M n i) := rfl
  rw [hact] at h
  rcases hJ : Js.get? jI with _ | J
  · rw [hJ] at h
    exact absurd h (by simp)
  · rw [hJ] at h
    by_cases hpa : pa = true
    · rw [hpa] at h
      simp only [if_true] at h
      exact computeActiveJ_le J.id _ blocksN blocks _ n i h
    · simp only [Bool.not_eq_true] at hpa
      rw [hpa] at h
      simpa using h

/-- Claim C4: with `prune_forward=True`, a non-`Instruction` equation that
is not forward-reachable from the controls `M` (along the shadowed
def-use edges of `transpose_deps_ics`) has `is_active(J_i, n, i) = False`
for every functional index and either pruning setting; with
`prune_forward=False` every tape equation is forward-active, and with
`prune_adjoint` also `False` every tape equation is `is_active` for every
functional index of `Js`.  The tape is sorted (Sequence or sorted
Mapping); `Instruction` equations have no outputs. -/
theorem claim_C4 (Js M : List Var) (blocksN : List Nat)
    (blocks : Nat → List Eqn) (pa : Bool)
    (hs : blocksN.Pairwise (· < ·))
    (hinstr : ∀ n ∈ blocksN, ∀ e ∈ blocks n,
      e.instruction = true → e.outs = []) :
    (∀ n i e, eqnAt blocksN blocks n i = some e → e.instruction = false →
      ¬ FwdReachable blocksN blocks
          (buildIcsEdges blocksN blocks (buildTransposeDeps blocksN blocks))
          (M.map Var.id) n i →
      ∀ jI, (mkGraph Js M blocksN blocks true pa).is_active jI n i
        = false) ∧
    (∀ n i e, eqnAt blocksN blocks n i = some e →
      computeActiveForward false blocksN blocks M n i = true) ∧
    (∀ jI, jI < Js.length → ∀ n i e, eqnAt blocksN blocks n i = some e →
      (mkGraph Js M blocksN blocks false false).is_active jI n i
        = true) := by
  have haf_true : ∀ n i e, eqnAt blocksN blocks n i = some e →
      computeActiveForward false blocksN blocks M n i = true := by
    intro n i e he
    unfold computeActiveForward
    rw [if_neg (by simp)]
    obtain ⟨hn, -⟩ := eqnAt_mem he
    unfold eqnAt at he
    rw [if_pos hn] at he
    have hi : i < (blocks n).length := by
      by_contra hc
      rw [List.get?_eq_none.mpr (by omega)] at he
      exact Option.noConfusion he
    simp [hn, hi]
  refine ⟨?_, haf_true, ?_⟩
  · intro n i e he hni hnr jI
    by_contra hc
    simp only [Bool.not_eq_false] at hc
    have h1 := mkGraph_active_le_af Js M blocksN blocks true pa jI n i hc
    have h2 : computeActiveForward true blocksN blocks M
        = pruneForwardPass blocksN blocks M
          (buildIcsEdges blocksN blocks (buildTransposeDeps blocksN blocks))
        := by
      unfold computeActiveForward
      rw [if_pos rfl]
    rw [h2] at h1
    have h3 := pruneForward_sound blocksN blocks M _
      (buildIcsEdges_targets blocksN blocks _
        (buildTransposeDeps_targets blocksN blocks hs))
      hinstr n i h1
    obtain ⟨e', he', hd⟩ := h3
    rw [he] at he'
    injection he' with he'
    subst he'
    rcases hd with hd | hd
    · rw [hni] at hd
      exact Bool.noConfusion hd
    · exact hnr hd
  · intro jI hjI n i e he
    have hJ : ∃ J, Js.get? jI = some J := by
      rw [List.get?_eq_get hjI]
      exact ⟨_, rfl⟩
    obtain ⟨J, hJ⟩ := hJ
    have hact : (mkGraph Js M blocksN blocks false false).is_active jI n i
        = (match Js.get? jI with
          | none => false
          | some j => computeActiveForward false blocksN blocks M n i) := rfl
    rw [hact, hJ]
    exact haf_true n i e he

/-- Claim C4, witness: a one-equation tape with no requested controls;
under `prune_forward=True` the equation (not an `Instruction`, and not
reachable from the empty control set) is inactive for every functional
index, while with both prunings off it is active for the functional. -/
theorem claim_C4_witness :
    (∀ jI, (mkGraph [mkV 1] [] [0]
        (fun _ : Nat =>
          [(⟨[mkV 1], [mkV 1], [], [], false, false, 0, none, []⟩ : Eqn)])
        true true).is_active jI 0 0 = false) ∧
    (mkGraph [mkV 1] [] [0]
        (fun _ : Nat =>
          [(⟨[mkV 1], [mkV 1], [], [], false, false, 0, none, []⟩ : Eqn)])
        false false).is_active 0 0 0 = true := by
  constructor
  · intro jI
    have h := (claim_C4 [mkV 1] [] [0]
      (fun _ : Nat =>
        [(⟨[mkV 1], [mkV 1], [], [], false, false, 0, none, []⟩ : Eqn)])
      true (by decide) (by decide)).1
    apply h 0 0 ⟨[mkV 1], [mkV 1], [], [], false, false, 0, none, []⟩
      (by decide) (by decide)
    intro hr
    have hempty : ∀ (q l : Nat),
        FwdReachable [0]
          (fun _ : Nat =>
            [(⟨[mkV 1], [mkV 1], [], [], false, false, 0, none, []⟩ : Eqn)])
          (buildIcsEdges [0]
            (fun _ : Nat =>
              [(⟨[mkV 1], [mkV 1], [], [], false, false, 0, none, []⟩
                 : Eqn)])
            (buildTransposeDeps [0]
              (fun _ : Nat =>
                [(⟨[mkV 1], [mkV 1], [], [], false, false, 0, none, []⟩
                   : Eqn)])))
          (([] : List Var).map Var.id) q l → False := by
      intro q l hreach
      induction hreach with
      | seed n i e hat hx =>
        obtain ⟨x, hxmem, hxid⟩ := hx
        simp at hxid
      | step n i e j p k m hat hj hedge hre ih =>
        exact ih
    exact hempty 0 0 hr
  · exact (claim_C4 [mkV 1] [] [0]
      (fun _ : Nat =>
        [(⟨[mkV 1], [mkV 1], [], [], false, false, 0, none, []⟩ : Eqn)])
      false (by decide) (by decide)).2.2 0 (by decide) 0 0
      ⟨[mkV 1], [mkV 1], [], [], false, false, 0, none, []⟩ (by decide)

end TlmAdj
